import Mathlib

/-!
Verification development for the ai-coder-pro VS Code extension core:
the context manager (rolling history with hard character ceiling and
heuristic summarization), the tool layer (path policy, file writes,
workspace search, command execution), and the strict-JSON project
payload protocol (tag extraction, markdown fence handling and the
multi-tier parse cascade).

Strings of the host language are modelled as lists of characters
(`Str := List Char`); positions, lengths and slices therefore count
characters, exactly as the index arithmetic of the source code does for the
inputs considered here.  Fallible operations return `Option`.
-/

set_option maxRecDepth 10000

abbrev Str := List Char

/-- Whitespace class used by the `trim` of the host language and by the
regular-expression class `\s` (common members; the exotic Unicode
spaces do not occur in any input considered here). -/
def jsWs (c : Char) : Bool :=
  c = ' ' || c = '\t' || c = '\n' || c = '\r' || c = '\x0b' || c = '\x0c' || c = '\u00A0'

/-- Whitespace admitted by the JSON grammar (RFC 8259), as accepted by
`JSON.parse`: space, tab, line feed, carriage return only. -/
def jsonWs (c : Char) : Bool :=
  c = ' ' || c = '\t' || c = '\n' || c = '\r'

/-- Model of `String.prototype.trim`: strip leading and trailing
whitespace. -/
def trimStr (s : Str) : Str :=
  ((s.dropWhile jsWs).reverse.dropWhile jsWs).reverse

/-- Model of `String.prototype.indexOf` for a pattern string: index of
the first occurrence, `none` standing for the `-1` of the source. -/
def idxOf (pat : Str) (s : Str) : Option Nat :=
  if pat.isPrefixOf s then some 0
  else
    match s with
    | [] => none
    | _ :: t => (idxOf pat t).map (· + 1)

/-- Whether `pat` occurs (contiguously) anywhere in `s`. -/
def occursB (pat : Str) (s : Str) : Bool :=
  (idxOf pat s).isSome

/-- Model of `String.prototype.slice(a, b)` for `0 ≤ a ≤ b`. -/
def sliceStr (s : Str) (a b : Nat) : Str :=
  (s.drop a).take (b - a)

/-- Model of `String.prototype.startsWith`. -/
def startsWithStr (pat : Str) (s : Str) : Bool :=
  pat.isPrefixOf s

/-- Model of `s.split(/\r?\n/)`: split on line feeds, consuming one
carriage return immediately before a line feed. -/
def splitLinesRN : Str → List Str
  | [] => [[]]
  | '\r' :: '\n' :: t => [] :: splitLinesRN t
  | '\n' :: t => [] :: splitLinesRN t
  | c :: t =>
    match splitLinesRN t with
    | [] => [[c]]
    | l :: ls => (c :: l) :: ls

/-- Model of `Array.prototype.join(sep)`. -/
def joinSep (sep : Str) : List Str → Str
  | [] => []
  | [x] => x
  | x :: y :: t => x ++ sep ++ joinSep sep (y :: t)

/-- Model of `slice(-n)` on arrays and of "the last n elements". -/
def takeLast (n : Nat) (l : List α) : List α :=
  l.drop (l.length - n)

/-- ASCII lower-casing, as applied by `toLowerCase` to the inputs
considered here. -/
def charLower (c : Char) : Char :=
  if 'A' ≤ c ∧ c ≤ 'Z' then Char.ofNat (c.toNat + 32) else c

/-- Digit characters of a decimal rendering, least significant last. -/
def natDecGo : Nat → Nat → Str
  | 0, _ => []
  | _ + 1, n =>
    if n < 10 then [Char.ofNat (48 + n)]
    else natDecGo n (n / 10) ++ [Char.ofNat (48 + n % 10)]

/-- Decimal rendering of a natural number, modelling the host
language number-to-string coercion for the integers used here. -/
def natDec (n : Nat) : Str :=
  natDecGo (n + 1) n

/-! ## Tooling.ts: path normalization and the allow/deny path policy -/

/-- Model of `normalizeRelPath` (src/agents/Tooling.ts): every
backslash becomes a forward slash, then a single leading segment of
the shape `./` or `/` is removed (the regular expression `^\.?\/`). -/
def normalizeRelPath (rel : Str) : Str :=
  let slashed := rel.map (fun c => if c = '\\' then '/' else c)
  match slashed with
  | '.' :: '/' :: t => t
  | '/' :: t => t
  | s => s

/-- Model of `isPathAllowed` (src/agents/Tooling.ts): the configured
allow and deny lists are read fresh on every call; a denied entry `d`
blocks `p` when `p === d` or `p` starts with `d + "/"`; an empty allow
list imposes no further restriction, otherwise some allowed entry must
match the same way. -/
def isPathAllowed (rel : Str) (allowed denied : List Str) : Bool :=
  let p := normalizeRelPath rel
  if denied.any (fun d => startsWithStr (d ++ ['/']) p || p = d) then false
  else if allowed.length = 0 then true
  else allowed.any (fun a => startsWithStr (a ++ ['/']) p || p = a)

/-! ## FileSystemTool.ts: write_file and apply_patch -/

/-- Uniform tool result shape (`ToolResult` of src/agents/Tooling.ts);
the `meta` payloads are modelled separately per tool where needed. -/
structure ToolResultM where
  ok : Bool
  output : Option Str
  error : Option Str
deriving DecidableEq

/-- Reified filesystem effects of the excluded host I/O layer; a tool
run returns the list of effects it performed, in order. -/
inductive FsEff where
  | mkdir (dir : Str)
  | write (path : Str) (content : Str)
deriving DecidableEq

/-- Parent-directory computation of `write_file`: split the normalized
relative path on `/`, drop the final segment, rejoin. -/
def parentOfRel (rel : Str) : Option Str :=
  let parts := (splitOnSlash rel).dropLast
  if parts.length = 0 then none else some (joinSep ['/'] parts)
where
  splitOnSlash : Str → List Str
    | [] => [[]]
    | '/' :: t => [] :: splitOnSlash t
    | c :: t =>
      match splitOnSlash t with
      | [] => [[c]]
      | l :: ls => (c :: l) :: ls

/-- Model of `write_file` (src/agents/FileSystemTool.ts).  Guards run
in source order: missing path, missing content (an empty string is
falsy), path policy, workspace presence; only then are directory
creation and the write performed.  The host write itself is assumed to
succeed (all-or-nothing per the external interface contract). -/
def write_file (path content : Str) (createDirs : Bool)
    (allowed denied : List Str) (hasWorkspace : Bool) :
    ToolResultM × List FsEff :=
  if path = [] then (⟨false, none, some ("path is required".toList)⟩, [])
  else if content = [] then (⟨false, none, some ("content is required".toList)⟩, [])
  else if ¬ isPathAllowed path allowed denied then
    (⟨false, none, some ("Path not allowed by policy".toList)⟩, [])
  else if ¬ hasWorkspace then (⟨false, none, some ("No workspace".toList)⟩, [])
  else
    let rel := normalizeRelPath path
    let dirEffs :=
      if createDirs then
        match parentOfRel rel with
        | some dir => [FsEff.mkdir dir]
        | none => []
      else []
    (⟨true, some (("wrote ".toList) ++ rel), none⟩, dirEffs ++ [FsEff.write rel content])

/-- Model of `apply_patch` (src/agents/FileSystemTool.ts): guards on
path and newContent, then a full-file replace delegated to
`write_file` with `createDirs` set. -/
def apply_patch (path newContent : Str)
    (allowed denied : List Str) (hasWorkspace : Bool) :
    ToolResultM × List FsEff :=
  if path = [] then (⟨false, none, some ("path is required".toList)⟩, [])
  else if newContent = [] then (⟨false, none, some ("newContent is required".toList)⟩, [])
  else write_file path newContent true allowed denied hasWorkspace

/-! ## ContextManager.ts: rolling history, hard ceiling, summarization -/

/-- Message roles (`Message.role` of src/services/ContextManager.ts). -/
inductive MsgRole where
  | user
  | assistant
  | system
  | tool
deriving DecidableEq

/-- Role tag as interpolated into transcripts. -/
def roleStr : MsgRole → Str
  | .user => "user".toList
  | .assistant => "assistant".toList
  | .system => "system".toList
  | .tool => "tool".toList

/-- Conversation message.  The source also stores a wall-clock
timestamp and an optional structured `meta` payload; neither is read
by any of the operations verified here, so they are omitted. -/
structure Msg where
  role : MsgRole
  content : Str
deriving DecidableEq

/-- Tunables of the `ContextManager` constructor.  Through the `opts`
parameter each may be set to any number; without `opts` the defaults
are `hardMaxTokens = max 1024 maxTokens-setting` (4096 by default),
`recentHistoryCount = 8`, `summarizeMinMessages = 10`. -/
structure CMConfig where
  hardMaxTokens : Nat
  targetContextTokens : Nat
  recentHistoryCount : Nat
  summarizeMinMessages : Nat
deriving DecidableEq

/-- Mutable state of a `ContextManager`. -/
structure CMState where
  messages : List Msg
  conversationSummary : Str
deriving DecidableEq

/-- Total character count of the retained message contents. -/
def totalChars (msgs : List Msg) : Nat :=
  msgs.foldl (fun s m => s + m.content.length) 0

/-- Model of the private `trimHardMax` loop: while more than 8
messages are retained and the total character count exceeds
`hardMaxTokens * 5`, evict the oldest message. -/
def trimHardMax (limitChars : Nat) : List Msg → List Msg
  | [] => []
  | m :: rest =>
    if (m :: rest).length > 8 ∧ totalChars (m :: rest) > limitChars then
      trimHardMax limitChars rest
    else m :: rest

/-- Model of `addMessage`: append the new message, then enforce the
hard ceiling. -/
def addMessage (cfg : CMConfig) (st : CMState) (role : MsgRole) (content : Str) : CMState :=
  { st with messages := trimHardMax (cfg.hardMaxTokens * 5) (st.messages ++ [⟨role, content⟩]) }

/-- A whole run of `addMessage` calls against a freshly constructed
manager. -/
def applyAdds (cfg : CMConfig) (adds : List (MsgRole × Str)) : CMState :=
  adds.foldl (fun st a => addMessage cfg st a.1 a.2) ⟨[], []⟩

/-- Model of the private helper `safeClip`: truncate to `max` chars,
reserving room for a truncation marker. -/
def safeClip (text : Str) (maxN : Nat) : Str :=
  if text.length ≤ maxN then text
  else text.take (maxN - 40) ++ ('\n' :: "…[truncated]".toList)

/-- Model of the private helper `clipSentence`: collapse whitespace
runs to single spaces, trim, clip to the limit with an ellipsis. -/
def clipSentence (s : Str) (limit : Nat) : Str :=
  let clean := trimStr (collapseWs s)
  if clean.length ≤ limit then clean else clean.take (limit - 1) ++ ['…']
where
  /-- Run collapsing done character-wise: a whitespace character is
  dropped when another whitespace character follows, so each maximal
  run contributes exactly one space. -/
  collapseWs : Str → Str
    | [] => []
    | [c] => if jsWs c then [' '] else [c]
    | c :: d :: t =>
      if jsWs c then
        if jsWs d then collapseWs (d :: t) else ' ' :: collapseWs (d :: t)
      else c :: collapseWs (d :: t)

/-- Stop-word list of `extractKeyTopics`. -/
def topicStopWords : List Str :=
  ["this", "that", "with", "from", "have", "will", "there", "their", "about",
   "which", "while", "where", "your", "would", "could", "should", "into",
   "between", "because", "after", "before", "under", "above", "below",
   "other", "these", "those", "than", "then", "when", "what", "ever",
   "also", "just", "like", "make", "takes", "using", "used", "been",
   "being", "were", "them", "some", "only", "each", "such", "more",
   "most", "many"].map String.toList

/-- Model of `text.toLowerCase().split(/[^a-z0-9_]+/g)`: split on
maximal runs of characters outside `[a-z0-9_]`, keeping empty pieces
at the boundaries exactly as the host split does. -/
def splitNonWordLower (s : Str) : List Str :=
  go (s.map charLower)
where
  isTok (c : Char) : Bool := (c.isLower && c.isAlpha) || c.isDigit || c = '_'
  /-- Splitting done character-wise: a separator character contributes
  a boundary only at the end of its maximal run. -/
  go : Str → List Str
    | [] => [[]]
    | [c] => if isTok c then [[c]] else [[], []]
    | c :: d :: t =>
      if isTok c then
        match go (d :: t) with
        | [] => [[c]]
        | l :: ls => (c :: l) :: ls
      else if isTok d then [] :: go (d :: t)
      else go (d :: t)

/-- Insertion-ordered frequency map update (`Map.set` semantics). -/
def bumpFreq (freq : List (Str × Nat)) (w : Str) : List (Str × Nat) :=
  match freq with
  | [] => [(w, 1)]
  | (k, n) :: t => if k = w then (k, n + 1) :: t else (k, n) :: bumpFreq t w

/-- Stable descending sort by count, the unique output of a stable
sort under the comparator `(a, b) => b[1] - a[1]`. -/
def stableSortDescByCount (l : List (Str × Nat)) : List (Str × Nat) :=
  match l with
  | [] => []
  | x :: t => insertDesc x (stableSortDescByCount t)
where
  insertDesc (x : Str × Nat) : List (Str × Nat) → List (Str × Nat)
    | [] => [x]
    | y :: t => if y.2 ≥ x.2 then y :: insertDesc x t else x :: y :: t

/-- Model of `extractKeyTopics`: frequency-ranked tokens of length at
least 4 that are not stop words. -/
def extractKeyTopics (text : Str) (maxN : Nat) : List Str :=
  let pieces := splitNonWordLower text
  let freq := pieces.foldl
    (fun acc w =>
      if w = [] ∨ w.length < 4 ∨ topicStopWords.contains w then acc
      else bumpFreq acc w)
    []
  ((stableSortDescByCount freq).take maxN).map Prod.fst

/-- Bullet-accumulating loop of `synthesizeSummary`; stops once the
joined bullets exceed `maxChars`. -/
def bulletsGo (maxChars : Nat) : List Str → List Str → List Str
  | [], acc => acc
  | line :: rest, acc =>
    let acc' :=
      if startsWithStr ("user:".toList) line then
        let u := trimStr (line.drop 5)
        if u = [] then acc else acc ++ [("• User: ".toList) ++ clipSentence u 180]
      else if startsWithStr ("assistant:".toList) line then
        let a := trimStr (line.drop 10)
        if a = [] then acc else acc ++ [("• Assistant: ".toList) ++ clipSentence a 180]
      else acc
    if (joinSep ['\n'] acc').length > maxChars then acc'
    else bulletsGo maxChars rest acc'

/-- Model of `synthesizeSummary`: bullet digest of user/assistant
lines plus up to 6 keyword topics, clipped to `maxChars`. -/
def synthesizeSummary (transcript : Str) (maxChars : Nat) : Str :=
  let lines := (splitLinesRN transcript).filter (fun l => ¬ l.isEmpty)
  let bullets := bulletsGo maxChars lines []
  let topics := extractKeyTopics transcript 6
  let parts :=
    [joinSep ['\n'] bullets,
     if topics.length ≠ 0 then ("• Topics: ".toList) ++ joinSep (", ".toList) topics else []]
  safeClip (joinSep ['\n'] (parts.filter (fun p => ¬ p.isEmpty))) maxChars

/-- Strip trailing whitespace (the regular expression `\s+$`). -/
def trimEndWs (s : Str) : Str :=
  (s.reverse.dropWhile jsWs).reverse

/-- Model of `mergeSummaries`: concatenate previous and new digests
with a blank line, capped at 1600 chars. -/
def mergeSummaries (prev next : Str) : Str :=
  if prev = [] then next
  else if next = [] then prev
  else
    let merged := joinSep ['\n'] [trimEndWs (trimStr prev), [], trimStr next]
    if merged.length > 1600 then safeClip merged 1600 else merged

/-- Model of `summarizeConversation`: no-op below the minimum message
count or when fewer than 4 user/assistant messages are in the last-12
window; otherwise merge a fresh digest into the running summary and
truncate the message list to the most recent
`max 5 (recentHistoryCount / 2)` messages. -/
def summarizeConversation (cfg : CMConfig) (st : CMState) : CMState :=
  if st.messages.length < cfg.summarizeMinMessages then st
  else
    let window := takeLast 12 (st.messages.filter
      (fun m => m.role = MsgRole.user ∨ m.role = MsgRole.assistant))
    if window.length < 4 then st
    else
      let joined := joinSep ['\n'] (window.map (fun m => roleStr m.role ++ (": ".toList) ++ m.content))
      let newly := synthesizeSummary joined 1200
      let merged := mergeSummaries st.conversationSummary newly
      { messages := takeLast (max 5 (cfg.recentHistoryCount / 2)) st.messages,
        conversationSummary := safeClip merged 1200 }

/-! ## ProcessTool.ts: run_command timeout/exit semantics

The spawned process and the event loop are external.  They are
modelled by an ordered schedule of events delivered to the handlers
that `run_command` registers: stdout chunks, stderr chunks, the single
timer expiry (never delivered after `close`, since `close` clears the
timer), and the process `close` with its exit code (`none` models the
`null` code of a signal-killed process).  Settling a promise is
idempotent: only the first `resolve` determines the value. -/

/-- Arguments of `run_command`. -/
structure RunArgs where
  cmd : Str
  timeoutSec : Option Nat
deriving DecidableEq

/-- Effective timeout in milliseconds:
`(args.timeoutSec ?? configured commandTimeoutSec ?? 300) * 1000`. -/
def effTimeoutMs (args : RunArgs) (cfgTimeoutSec : Option Nat) : Nat :=
  (args.timeoutSec.getD (cfgTimeoutSec.getD 300)) * 1000

/-- Events delivered to the handlers registered by `run_command`. -/
inductive PEvent where
  | out (s : Str)
  | err (s : Str)
  | timerFire
  | close (code : Option Nat)
deriving DecidableEq

/-- Executor state: accumulated stdout/stderr, whether the timer is
still armed, whether a kill signal was issued, and the settled promise
value (if any). -/
structure PState where
  out : Str
  err : Str
  timerActive : Bool
  killed : Bool
  settled : Option ToolResultM
deriving DecidableEq

/-- First-resolve-wins promise settling. -/
def settle (st : PState) (r : ToolResultM) : PState :=
  match st.settled with
  | some _ => st
  | none => { st with settled := some r }

/-- The timeout result:
`{ok:false, error:"timeout after Ns", output: partial stdout}`. -/
def timeoutResult (tmoMs : Nat) (partOut : Str) : ToolResultM :=
  ⟨false, some partOut, some (("timeout after ".toList) ++ natDec (tmoMs / 1000) ++ ['s'])⟩

/-- The close-handler result: `ok` iff the exit code is `0`; on
failure, stderr if non-empty, otherwise `exit code N`. -/
def closeResult (code : Option Nat) (outAcc errAcc : Str) : ToolResultM :=
  if code = some 0 then ⟨true, some outAcc, none⟩
  else
    ⟨false, some outAcc,
      some (if errAcc ≠ [] then errAcc
            else ("exit code ".toList) ++ (match code with
              | some n => natDec n
              | none => "null".toList))⟩

/-- One handler invocation, transliterated from the executor body of
`run_command` (src/agents/ProcessTool.ts). -/
def runStep (tmoMs : Nat) (st : PState) (e : PEvent) : PState :=
  match e with
  | .out s => { st with out := st.out ++ s }
  | .err s => { st with err := st.err ++ s }
  | .timerFire =>
    if st.timerActive then
      settle { st with killed := true, timerActive := false } (timeoutResult tmoMs st.out)
    else st
  | .close code =>
    settle { st with timerActive := false } (closeResult code st.out st.err)

/-- Initial executor state: timer armed, nothing captured, pending. -/
def runInit : PState := ⟨[], [], true, false, none⟩

/-- Folding a whole schedule of events. -/
def runCommandModel (args : RunArgs) (cfgTimeoutSec : Option Nat)
    (sched : List PEvent) : PState :=
  sched.foldl (runStep (effTimeoutMs args cfgTimeoutSec)) runInit

/-- Data-only events (no terminal event). -/
def isDataEvent : PEvent → Bool
  | .out _ => true
  | .err _ => true
  | _ => false

/-- Accumulated stdout of a schedule prefix. -/
def stdoutOf : List PEvent → Str
  | [] => []
  | .out s :: rest => s ++ stdoutOf rest
  | _ :: rest => stdoutOf rest

/-- Accumulated stderr of a schedule prefix. -/
def stderrOf : List PEvent → Str
  | [] => []
  | .err s :: rest => s ++ stderrOf rest
  | _ :: rest => stderrOf rest

/-! ## search_in_workspace (src tool adapter)

The workspace file provider (`findFiles` + file reads) is external:
it is modelled by the list of files in the order the provider returns
them, each with its text.  The compiled case-insensitive regular
expression is external too and is modelled by its `test` predicate on
lines. -/

/-- A workspace file as the search tool sees it: relative name plus
full text. -/
structure WFile where
  name : Str
  txt : Str

/-- A search hit `{file, line, text}` (line numbers start at 1). -/
structure SMatch where
  file : Str
  line : Nat
  text : Str
deriving DecidableEq

/-- Inner loop over the lines of one file: push each matching line,
break once `maxResults ≤ matches.length`. -/
def searchLinesGo (test : Str → Bool) (fname : Str) (k : Nat) :
    List (Nat × Str) → List SMatch → List SMatch
  | [], acc => acc
  | (i, l) :: rest, acc =>
    if test l then
      let acc' := acc ++ [⟨fname, i + 1, l⟩]
      if k ≤ acc'.length then acc' else searchLinesGo test fname k rest acc'
    else searchLinesGo test fname k rest acc

/-- Zero-based enumeration of lines. -/
def enumLines (txt : Str) : List (Nat × Str) :=
  (splitLinesRN txt).enum

/-- Outer loop over files: scan each file, break once
`maxResults ≤ matches.length`. -/
def searchFilesGo (test : Str → Bool) (k : Nat) :
    List WFile → List SMatch → List SMatch
  | [], acc => acc
  | f :: rest, acc =>
    let acc' := searchLinesGo test f.name k (enumLines f.txt) acc
    if k ≤ acc'.length then acc' else searchFilesGo test k rest acc'

/-- Result shape of `search_in_workspace`. -/
inductive SearchRes where
  | err (e : Str)
  | found (hits : List SMatch)
deriving DecidableEq

/-- Model of `search_in_workspace` (tool adapter): guard on the query,
then the two-level scan with the `maxResults ?? 200` cutoff checked in
both loops. -/
def search_in_workspace (query : Str) (test : Str → Bool)
    (maxResults : Option Nat) (files : List WFile) : SearchRes :=
  if query = [] then .err ("query is required".toList)
  else .found (searchFilesGo test (maxResults.getD 200) files [])

/-- Specification-side list of all matches in file-then-line order. -/
def allMatches (test : Str → Bool) (files : List WFile) : List SMatch :=
  files.foldr
    (fun f rest =>
      ((enumLines f.txt).filter (fun p => test p.2)).map
        (fun p => ⟨f.name, p.1 + 1, p.2⟩) ++ rest)
    []

/-! ## ModelIO (src/types.ts): JSON values and JSON.parse

`JSON.parse` is modelled by a fueled recursive-descent parser for the
RFC 8259 grammar.  Number literals are kept as their lexemes (no
numeric claim depends on float values).  Object member lists keep
textual order; a duplicate key overwrites in place, as host objects
do.  The fuel `2 * length + 2` exceeds the maximal call depth on any
input, so fuel exhaustion never changes a result. -/

/-- JSON values as produced by `JSON.parse`. -/
inductive Json where
  | null
  | bool (b : Bool)
  | num (lexeme : Str)
  | str (chars : Str)
  | arr (elems : List Json)
  | obj (members : List (Str × Json))

/-- Property access `j.k` on a parsed value: only objects have
(string-keyed) properties here; member keys are unique by
construction, so the first binding is the value. -/
def getProp (j : Json) (key : Str) : Option Json :=
  match j with
  | .obj ms => find ms
  | _ => none
where
  find : List (Str × Json) → Option Json
    | [] => none
    | (k, v) :: t => if k = key then some v else find t

/-- Whether the digits of a JSON number lexeme before any exponent are
all zero, i.e. whether its numeric value is zero. -/
def numLexZero (lex : Str) : Bool :=
  (lex.takeWhile (fun c => ¬ (c = 'e' ∨ c = 'E'))).all
    (fun c => ¬ c.isDigit || c = '0')

/-- Host-language truthiness of a parsed JSON value. -/
def jsTruthy : Json → Bool
  | .null => false
  | .bool b => b
  | .num lex => ¬ numLexZero lex
  | .str s => ¬ s.isEmpty
  | .arr _ => true
  | .obj _ => true

/-- Model of `Array.isArray`. -/
def isJsArray : Json → Bool
  | .arr _ => true
  | _ => false

/-- Value of a hexadecimal digit. -/
def hexDigitVal (c : Char) : Option Nat :=
  if '0' ≤ c ∧ c ≤ '9' then some (c.toNat - 48)
  else if 'a' ≤ c ∧ c ≤ 'f' then some (c.toNat - 87)
  else if 'A' ≤ c ∧ c ≤ 'F' then some (c.toNat - 55)
  else none

/-- Short escapes of the JSON string grammar. -/
def jsonEscMap (e : Char) : Option Char :=
  if e = '"' then some '"'
  else if e = '\\' then some '\\'
  else if e = '/' then some '/'
  else if e = 'b' then some '\x08'
  else if e = 'f' then some '\x0c'
  else if e = 'n' then some '\n'
  else if e = 'r' then some '\r'
  else if e = 't' then some '\t'
  else none

/-- Body of a JSON string after its opening quote: unescape until the
closing quote, rejecting raw control characters and invalid escapes.
A `\uXXXX` escape denoting a surrogate half is mapped through
`Char.ofNat`'s fallback; no input considered here contains one. -/
def parseStrBody : Str → Option (Str × Str)
  | [] => none
  | c :: r =>
    if c = '"' then some ([], r)
    else if c = '\\' then
      match r with
      | 'u' :: a :: b :: c2 :: d :: r2 =>
        match hexDigitVal a, hexDigitVal b, hexDigitVal c2, hexDigitVal d with
        | some x, some y, some z, some w =>
          (parseStrBody r2).map
            (fun p => (Char.ofNat (4096 * x + 256 * y + 16 * z + w) :: p.1, p.2))
        | _, _, _, _ => none
      | e :: r2 =>
        match jsonEscMap e with
        | some c3 => (parseStrBody r2).map (fun p => (c3 :: p.1, p.2))
        | none => none
      | [] => none
    else if c.toNat < 32 then none
    else (parseStrBody r).map (fun p => (c :: p.1, p.2))

/-- Integer part of a JSON number after the optional sign: `0` or a
nonzero digit followed by digits (no leading zeros). -/
def lexInt : Str → Option (Str × Str)
  | '0' :: r => some (['0'], r)
  | c :: r =>
    if c.isDigit then some (c :: r.takeWhile Char.isDigit, r.dropWhile Char.isDigit)
    else none
  | [] => none

/-- Fraction part: a dot followed by at least one digit, else nothing
is consumed. -/
def lexFrac (s : Str) : Str × Str :=
  match s with
  | '.' :: r =>
    match r with
    | c :: _ =>
      if c.isDigit then ('.' :: r.takeWhile Char.isDigit, r.dropWhile Char.isDigit)
      else ([], s)
    | [] => ([], s)
  | _ => ([], s)

/-- Exponent part: `e`/`E`, optional sign, at least one digit, else
nothing is consumed. -/
def lexExp (s : Str) : Str × Str :=
  match s with
  | e :: rest =>
    if e = 'e' ∨ e = 'E' then
      match rest with
      | sgn :: r2 =>
        if sgn = '+' ∨ sgn = '-' then
          match r2 with
          | c :: _ =>
            if c.isDigit then (e :: sgn :: r2.takeWhile Char.isDigit, r2.dropWhile Char.isDigit)
            else ([], s)
          | [] => ([], s)
        else if sgn.isDigit then
          (e :: rest.takeWhile Char.isDigit, rest.dropWhile Char.isDigit)
        else ([], s)
      | [] => ([], s)
    else ([], s)
  | [] => ([], s)

/-- Maximal valid JSON number lexeme at the head of the input. -/
def lexNumber (s : Str) : Option (Str × Str) :=
  match s with
  | '-' :: r =>
    (lexInt r).map (fun p =>
      let f := lexFrac p.2
      let e := lexExp f.2
      ('-' :: (p.1 ++ f.1 ++ e.1), e.2))
  | _ =>
    (lexInt s).map (fun p =>
      let f := lexFrac p.2
      let e := lexExp f.2
      (p.1 ++ f.1 ++ e.1, e.2))

/-- Host-object member update: overwrite an existing key in place,
else append. -/
def insertMember (acc : List (Str × Json)) (k : Str) (v : Json) : List (Str × Json) :=
  match acc with
  | [] => [(k, v)]
  | (k0, v0) :: t => if k0 = k then (k0, v) :: t else (k0, v0) :: insertMember t k v

/-- Parser frames: a value, the interior of an array (before the first
element / after an element), the interior of an object. -/
inductive PFrame where
  | val
  | arrFirst
  | arrRest (acc : List Json)
  | objFirst
  | objRest (acc : List (Str × Json))

/-- One fueled step of the recursive-descent JSON parser. -/
def pstep : Nat → PFrame → Str → Option (Json × Str)
  | 0, _, _ => none
  | fuel + 1, .val, s =>
    match s.dropWhile jsonWs with
    | 'n' :: 'u' :: 'l' :: 'l' :: r => some (.null, r)
    | 't' :: 'r' :: 'u' :: 'e' :: r => some (.bool true, r)
    | 'f' :: 'a' :: 'l' :: 's' :: 'e' :: r => some (.bool false, r)
    | '"' :: r => (parseStrBody r).map (fun p => (.str p.1, p.2))
    | '[' :: r => pstep fuel .arrFirst r
    | '{' :: r => pstep fuel .objFirst r
    | c :: r =>
      if c = '-' ∨ c.isDigit then (lexNumber (c :: r)).map (fun p => (.num p.1, p.2))
      else none
    | [] => none
  | fuel + 1, .arrFirst, s =>
    match s.dropWhile jsonWs with
    | ']' :: r => some (.arr [], r)
    | s1 =>
      match pstep fuel .val s1 with
      | some (v, r) => pstep fuel (.arrRest [v]) r
      | none => none
  | fuel + 1, .arrRest acc, s =>
    match s.dropWhile jsonWs with
    | ']' :: r => some (.arr acc, r)
    | ',' :: r =>
      match pstep fuel .val r with
      | some (v, r2) => pstep fuel (.arrRest (acc ++ [v])) r2
      | none => none
    | _ => none
  | fuel + 1, .objFirst, s =>
    match s.dropWhile jsonWs with
    | '}' :: r => some (.obj [], r)
    | '"' :: r =>
      match parseStrBody r with
      | some (k, r2) =>
        match r2.dropWhile jsonWs with
        | ':' :: r3 =>
          match pstep fuel .val r3 with
          | some (v, r4) => pstep fuel (.objRest [(k, v)]) r4
          | none => none
        | _ => none
      | none => none
    | _ => none
  | fuel + 1, .objRest acc, s =>
    match s.dropWhile jsonWs with
    | '}' :: r => some (.obj acc, r)
    | ',' :: r =>
      match r.dropWhile jsonWs with
      | '"' :: r1 =>
        match parseStrBody r1 with
        | some (k, r2) =>
          match r2.dropWhile jsonWs with
          | ':' :: r3 =>
            match pstep fuel .val r3 with
            | some (v, r4) => pstep fuel (.objRest (insertMember acc k v)) r4
            | none => none
          | _ => none
        | none => none
      | _ => none
    | _ => none

/-- Model of `JSON.parse`: one value, then only whitespace may remain;
any violation throws (returns `none`). -/
def jsonParse (s : Str) : Option Json :=
  match pstep (2 * s.length + 2) .val s with
  | some (j, rest) => if (rest.dropWhile jsonWs).isEmpty then some j else none
  | none => none

/-! ## GeneratedProject and its wire serialization -/

/-- One file of a generated project (`GeneratedFile` of src/types.ts). -/
structure GeneratedFile where
  path : Str
  content : Str
  executable : Option Bool

/-- Complete payload (`GeneratedProject` of src/types.ts). -/
structure GeneratedProject where
  files : List GeneratedFile
  postInstall : Option Str
  start : Option Str

/-- Lower-case hexadecimal digit. -/
def toHexDigit (n : Nat) : Char :=
  if n < 10 then Char.ofNat (48 + n) else Char.ofNat (87 + n)

/-- Escaping of one character by `JSON.stringify`: quote, backslash
and the named control characters get two-character escapes, the other
control characters get `\u00XX`, everything else passes through. -/
def escChar (c : Char) : Str :=
  if c = '"' then ['\\', '"']
  else if c = '\\' then ['\\', '\\']
  else if c = '\x08' then ['\\', 'b']
  else if c = '\t' then ['\\', 't']
  else if c = '\n' then ['\\', 'n']
  else if c = '\x0c' then ['\\', 'f']
  else if c = '\r' then ['\\', 'r']
  else if c.toNat < 32 then
    ['\\', 'u', '0', '0', toHexDigit (c.toNat / 16), toHexDigit (c.toNat % 16)]
  else [c]

/-- Escaped body of a JSON string literal. -/
def escStr : Str → Str
  | [] => []
  | c :: t => escChar c ++ escStr t

/-- A quoted JSON string literal. -/
def qstr (s : Str) : Str :=
  '"' :: (escStr s ++ ['"'])

/-- Object keys of the wire protocol. -/
def pathKey : Str := "path".toList

/-- The `content` key. -/
def contentKey : Str := "content".toList

/-- The `executable` key. -/
def execKey : Str := "executable".toList

/-- The `files` key. -/
def filesKey : Str := "files".toList

/-- The `postInstall` key. -/
def postInstallKey : Str := "postInstall".toList

/-- The `start` key. -/
def startKey : Str := "start".toList

/-- Serialization of one file object, as `JSON.stringify` renders it
(keys in declaration order, `executable` omitted when absent). -/
def serFile (f : GeneratedFile) : Str :=
  ['{'] ++ qstr pathKey ++ [':'] ++ qstr f.path
    ++ [','] ++ qstr contentKey ++ [':'] ++ qstr f.content
    ++ (match f.executable with
        | some b => [','] ++ qstr execKey ++ [':'] ++ (if b then "true".toList else "false".toList)
        | none => [])
    ++ ['}']

/-- Comma-prefixed continuation of the files array. -/
def serFilesRest : List GeneratedFile → Str
  | [] => []
  | f :: t => [','] ++ serFile f ++ serFilesRest t

/-- Interior of the files array. -/
def serFiles : List GeneratedFile → Str
  | [] => []
  | f :: t => serFile f ++ serFilesRest t

/-- An optional trailing string-valued member. -/
def serOptMember (key : Str) (v : Option Str) : Str :=
  match v with
  | some s => [','] ++ qstr key ++ [':'] ++ qstr s
  | none => []

/-- Model of `JSON.stringify` of a whole project payload. -/
def stringifyProject (p : GeneratedProject) : Str :=
  ['{'] ++ qstr filesKey ++ [':'] ++ ['['] ++ serFiles p.files ++ [']']
    ++ serOptMember postInstallKey p.postInstall
    ++ serOptMember startKey p.start
    ++ ['}']

/-- The opening wire tag. -/
def STARTTAG : Str := "<AICODER_JSON>".toList

/-- The closing wire tag. -/
def ENDTAG : Str := "</AICODER_JSON>".toList

/-- Modelled from the spec: the wire protocol of §6 wraps the
`JSON.stringify` rendering of the payload in the literal tag pair (the
repository prescribes the format in `STRUCTURED_OUTPUT_INSTRUCTION`
but contains no serializer function). -/
def serializeTagged (p : GeneratedProject) : Str :=
  STARTTAG ++ stringifyProject p ++ ENDTAG

/-- The `Json` value `JSON.parse` recovers from
`stringifyProject p`. -/
def fileJson (f : GeneratedFile) : Json :=
  .obj ([(pathKey, .str f.path), (contentKey, .str f.content)]
    ++ (match f.executable with
        | some b => [(execKey, .bool b)]
        | none => []))

/-- The parsed form of a whole project payload. -/
def projJson (p : GeneratedProject) : Json :=
  .obj ([(filesKey, .arr (p.files.map fileJson))]
    ++ (match p.postInstall with | some s => [(postInstallKey, .str s)] | none => [])
    ++ (match p.start with | some s => [(startKey, .str s)] | none => []))

/-! ## Markdown fence handling (src/types.ts) -/

/-- The backtick character. -/
def bq : Char := Char.ofNat 96

/-- The single-quote character. -/
def sqc : Char := Char.ofNat 39

/-- Case-insensitive test for the literal label `json`. -/
def ciJson (s : Str) : Bool :=
  (s.take 4).map charLower = "json".toList

/-- Word characters of the fence-label class `[\w-]`. -/
def wordDash (c : Char) : Bool :=
  c.isAlpha || c.isDigit || c = '_' || c = '-'

/-- First capture group of the first match of the regular expression
`/```json\s*([\s\S]*?)```/i` (the strict fenced-block fallback of
`extractProjectFromResponse`): at each position, three backticks
followed by the case-insensitive label, greedy whitespace, then the
lazy group runs to the next triple backtick; if no closing fence
follows, the scan resumes at the next position. -/
def fencedJsonGroup : Str → Option Str
  | [] => none
  | c :: t =>
    let s := c :: t
    if s.take 3 = [bq, bq, bq] ∧ ciJson (s.drop 3) then
      let after := (s.drop 7).dropWhile jsWs
      match idxOf [bq, bq, bq] after with
      | some k => some (after.take k)
      | none => fencedJsonGroup t
    else fencedJsonGroup t

/-- One attempted match of the general fence expression
`/```(?:json|[\w-]+)?\s*([\s\S]*?)```/i` at the head of `s`:
`(total match length, capture group)`.  The `json` alternative is
preferred, else the longest label run, else no label; the skipped
label/whitespace characters never contain a backtick, so whether some
closing fence follows does not depend on that choice. -/
def fenceMatchAt (s : Str) : Option (Nat × Str) :=
  if s.take 3 = [bq, bq, bq] then
    let r := s.drop 3
    let afterLabel := if ciJson r then r.drop 4 else r.dropWhile wordDash
    let labelLen := r.length - afterLabel.length
    let wsLen := (afterLabel.takeWhile jsWs).length
    let body := afterLabel.dropWhile jsWs
    match idxOf [bq, bq, bq] body with
    | some k => some (3 + labelLen + wsLen + k + 3, body.take k)
    | none => none
  else none

/-- Leftmost match of the general fence expression:
`(start index, total length, capture group)`. -/
def findFenceMatch : Str → Option (Nat × Nat × Str)
  | [] => none
  | c :: t =>
    match fenceMatchAt (c :: t) with
    | some (len, g) => some (0, len, g)
    | none => (findFenceMatch t).map (fun x => (x.1 + 1, x.2.1, x.2.2))

/-- Global replacement of every fence by its capture group (the
`text.replace(/```(?:json|[\w-]+)?\s*([\s\S]*?)```/g, '$1')` branch);
fueled by the text length, which bounds the number of non-overlapping
matches. -/
def replaceFences : Nat → Str → Str
  | 0, s => s
  | fuel + 1, s =>
    match findFenceMatch s with
    | some (i, len, g) => s.take i ++ g ++ replaceFences fuel (s.drop (i + len))
    | none => s

/-- Model of `stripMarkdownFences` (src/types.ts): prefer the
non-empty interior of the first fenced block, otherwise strip all
fences and trim. -/
def stripMarkdownFences (text : Str) : Str :=
  if text = [] then text
  else
    match findFenceMatch text with
    | some (_, _, g) =>
      if ¬ g.isEmpty then trimStr g
      else trimStr (replaceFences text.length text)
    | none => trimStr (replaceFences text.length text)

/-! ## The parse cascade (src/types.ts) -/

/-- Model of the private `safeParse`: `JSON.parse`, then reject falsy
results and results whose `files` property is not an array. -/
def safeParse (s : Str) : Option Json :=
  match jsonParse s with
  | none => none
  | some j =>
    if ¬ jsTruthy j then none
    else
      match getProp j filesKey with
      | some (.arr _) => some j
      | _ => none

/-- Model of the private `parseAnyProject`: `JSON.parse`, accept when
the result is truthy and its `files` property is an array. -/
def parseAnyProject (s : Str) : Option Json :=
  match jsonParse s with
  | none => none
  | some j =>
    if jsTruthy j then
      match getProp j filesKey with
      | some (.arr _) => some j
      | _ => none
    else none

/-- Tag-pair condition of `extractProjectFromResponse`:
both tags found and the end tag strictly after the start tag. -/
def tagCond (text : Str) : Option (Nat × Nat) :=
  match idxOf STARTTAG text, idxOf ENDTAG text with
  | some ts, some te => if ts < te then some (ts, te) else none
  | _, _ => none

/-- Model of `extractProjectFromResponse` (src/types.ts): when the tag
pair is present, parse the interior and return that result (also on
failure — the fence fallback is not tried then); otherwise parse the
first `json`-labelled fenced block with a non-empty capture. -/
def extractProjectFromResponse (text : Str) : Option Json :=
  if text = [] then none
  else
    match tagCond text with
    | some (ts, te) => safeParse (trimStr (sliceStr text (ts + STARTTAG.length) te))
    | none =>
      match fencedJsonGroup text with
      | some g => if g.isEmpty then none else safeParse (trimStr g)
      | none => none

/-- Quote-aware brace scan of `extractProjectFromResponseLoose`,
started at the first `{`: tracks nesting depth, string state for both
quote styles and backslash escapes; returns the offset of the brace
closing the first top-level object. -/
def braceScan : Str → Nat → Option Char → Bool → Nat → Option Nat
  | [], _, _, _, _ => none
  | c :: t, depth, inStr, esc, i =>
    match inStr with
    | some q =>
      if esc then braceScan t depth (some q) false (i + 1)
      else if c = '\\' then braceScan t depth (some q) true (i + 1)
      else if c = q then braceScan t depth none false (i + 1)
      else braceScan t depth (some q) false (i + 1)
    | none =>
      if c = '"' ∨ c = sqc then braceScan t depth (some c) false (i + 1)
      else if c = '{' then braceScan t (depth + 1) none false (i + 1)
      else if c = '}' then
        if depth = 1 then some i else braceScan t (depth - 1) none false (i + 1)
      else braceScan t depth none false (i + 1)

/-- The `parsed?.files && Array.isArray(parsed.files)` check. -/
def looseFilesCheck (j : Json) : Bool :=
  match getProp j filesKey with
  | some v => jsTruthy v && isJsArray v
  | none => false

/-- Model of `extractProjectFromResponseLoose` (src/types.ts): strip
fences, locate and scan the first top-level object, accept it when it
parses with a `files` array; in every other case fall back to parsing
the whole fence-stripped text. -/
def extractProjectFromResponseLoose (text : Str) : Option Json :=
  if text = [] then none
  else
    let clean := trimStr (stripMarkdownFences text)
    match idxOf ['{'] clean with
    | some start =>
      match braceScan (clean.drop start) 0 none false 0 with
      | some iEnd =>
        let candidate := trimStr ((clean.drop start).take (iEnd + 1))
        match safeParse candidate with
        | some parsed => if looseFilesCheck parsed then some parsed else safeParse clean
        | none => safeParse clean
      | none => safeParse clean
    | none => safeParse clean

/-- Model of `parseProjectFromAnyText` (src/types.ts): the cascade as
implemented — strict extraction, fence-stripped whole parse, loose
scan, raw trimmed parse; first success wins. -/
def parseProjectFromAnyText (text : Str) : Option Json :=
  if text = [] then none
  else
    match extractProjectFromResponse text with
    | some strict => some strict
    | none =>
      match parseAnyProject (trimStr (stripMarkdownFences text)) with
      | some raw => some raw
      | none =>
        match extractProjectFromResponseLoose text with
        | some loose => some loose
        | none => parseAnyProject (trimStr text)

/-! ## The four-tier algorithm as the specification words it -/

/-- Modelled from the spec (§4.4 tier 3): the quote-aware
brace-matching scan applied to the free-form text itself, isolating
the first complete top-level object and requiring a `files` array —
with no further fallback inside the tier. -/
def specLooseScan (text : Str) : Option Json :=
  match idxOf ['{'] text with
  | some start =>
    match braceScan (text.drop start) 0 none false 0 with
    | some iEnd =>
      match safeParse (trimStr ((text.drop start).take (iEnd + 1))) with
      | some parsed => if looseFilesCheck parsed then some parsed else none
      | none => none
    | none => none
  | none => none

/-- Modelled from the spec (§4.4): the strictly ordered four tiers as
the specification describes them — (1) parse the interior of the
literal tag pair, (2) strip fenced code-block markers and re-attempt a
whole-string parse, (3) the quote-aware brace-matching scan, (4) parse
the raw trimmed text. -/
def specFourTierParse (text : Str) : Option Json :=
  if text = [] then none
  else
    match tagCond text with
    | some (ts, te) =>
      match safeParse (trimStr (sliceStr text (ts + STARTTAG.length) te)) with
      | some j => some j
      | none => specFourTierRest text
    | none => specFourTierRest text
where
  specFourTierRest (text : Str) : Option Json :=
    match safeParse (trimStr (stripMarkdownFences text)) with
    | some j => some j
    | none =>
      match specLooseScan text with
      | some j => some j
      | none => safeParse (trimStr text)

/-! ## Theorems: path policy (C5) -/

/-- C5: for every path and every configuration whose denied set
contains a path-prefix of the normalized relative path (`p === d` or
`p` starts with `d + "/"`), `isPathAllowed` returns false regardless
of the contents of the allowed set. -/
theorem isPathAllowed_denied_rejects (rel : Str) (allowed denied : List Str)
    (d : Str) (hd : d ∈ denied)
    (hpre : normalizeRelPath rel = d
      ∨ (d ++ ['/']).isPrefixOf (normalizeRelPath rel) = true) :
    isPathAllowed rel allowed denied = false := by
  unfold isPathAllowed
  have hany : denied.any
      (fun d0 => startsWithStr (d0 ++ ['/']) (normalizeRelPath rel)
        || normalizeRelPath rel = d0) = true := by
    rw [List.any_eq_true]
    refine ⟨d, hd, ?_⟩
    rcases hpre with h | h
    · simp [startsWithStr, h]
    · simp [startsWithStr, h]
  simp [hany]

/-- Witness for C5 at a concrete configuration. -/
theorem isPathAllowed_denied_rejects_w :
    isPathAllowed ("src/x.ts".toList) [("other".toList)] [("src".toList)] = false :=
  isPathAllowed_denied_rejects _ _ _ ("src".toList) (by simp) (Or.inr (by decide))

/-! ## Theorems: write_file and apply_patch on empty content (C10) -/

/-- Helper: every write effect a `write_file` run performs carries the
non-empty content that passed the guard. -/
theorem write_file_write_nonempty (path content : Str) (createDirs : Bool)
    (allowed denied : List Str) (hasWs : Bool) (p c : Str)
    (hmem : FsEff.write p c ∈ (write_file path content createDirs allowed denied hasWs).2) :
    c ≠ [] := by
  unfold write_file at hmem
  split at hmem
  · simp at hmem
  · split at hmem
    · simp at hmem
    · split at hmem
      · simp at hmem
      · split at hmem
        · simp at hmem
        · rename_i hpath hcontent hpol hws
          rcases List.mem_append.mp hmem with hin | hin
          · split at hin <;> first
              | simp at hin
              | (split at hin <;> simp at hin)
          · simp at hin
            exact hin.2 ▸ hcontent

/-- C10: `write_file` treats empty-string content as missing: for
every non-empty path it answers `{ok:false, error:"content is
required"}` with no effects, independently of the policy
configuration and workspace; moreover neither `write_file` nor
`apply_patch` (which delegates to it) ever performs a write effect
with empty content. -/
theorem write_file_empty_content_contract :
    (∀ path createDirs allowed denied hasWs, path ≠ [] →
      write_file path [] createDirs allowed denied hasWs
        = (⟨false, none, some ("content is required".toList)⟩, []))
    ∧ (∀ path content createDirs allowed denied hasWs p c,
        FsEff.write p c ∈ (write_file path content createDirs allowed denied hasWs).2 →
        c ≠ [])
    ∧ (∀ path newContent allowed denied hasWs p c,
        FsEff.write p c ∈ (apply_patch path newContent allowed denied hasWs).2 →
        c ≠ []) := by
  refine ⟨?_, write_file_write_nonempty, ?_⟩
  · intro path createDirs allowed denied hasWs hpath
    unfold write_file
    rw [if_neg hpath, if_pos rfl]
  · intro path newContent allowed denied hasWs p c hmem
    unfold apply_patch at hmem
    split at hmem
    · simp at hmem
    · split at hmem
      · simp at hmem
      · exact write_file_write_nonempty _ _ _ _ _ _ _ _ hmem

/-- Witness for C10 at a concrete input. -/
theorem write_file_empty_content_contract_w :
    write_file ("a.txt".toList) [] true [] [] true
      = (⟨false, none, some ("content is required".toList)⟩, []) :=
  write_file_empty_content_contract.1 _ _ _ _ _ (by decide)

/-! ## Theorems: the hard character ceiling (C1) -/

/-- Helper: `trimHardMax` only evicts from the front. -/
theorem trimHardMax_suffix (lim : Nat) : ∀ msgs, trimHardMax lim msgs <:+ msgs
  | [] => by simp [trimHardMax]
  | m :: rest => by
    unfold trimHardMax
    split
    · exact (trimHardMax_suffix lim rest).trans (List.suffix_cons m rest)
    · exact List.suffix_refl _

/-- Helper: `trimHardMax` never drops below 8 retained (nor below the
input length when that is smaller). -/
theorem trimHardMax_length (lim : Nat) : ∀ msgs : List Msg,
    min msgs.length 8 ≤ (trimHardMax lim msgs).length
  | [] => by simp [trimHardMax]
  | m :: rest => by
    unfold trimHardMax
    split
    · rename_i hcond
      have := trimHardMax_length lim rest
      have hlen : (m :: rest).length > 8 := hcond.1
      simp only [List.length_cons] at hlen ⊢
      omega
    · simp only [List.length_cons]
      omega

/-- Helper: on exit of the `trimHardMax` loop, either at most 8
messages remain or the character total is within the limit. -/
theorem trimHardMax_exit (lim : Nat) : ∀ msgs : List Msg,
    (trimHardMax lim msgs).length ≤ 8 ∨ totalChars (trimHardMax lim msgs) ≤ lim
  | [] => by simp [trimHardMax]
  | m :: rest => by
    unfold trimHardMax
    split
    · exact trimHardMax_exit lim rest
    · rename_i hcond
      rcases Decidable.not_and_iff_or_not.mp hcond with h | h
      · exact Or.inl (by omega)
      · exact Or.inr (by omega)

/-- C1 (amended): after every sequence of `addMessage` calls on a
fresh manager, (a) at least `min 8 n` of the `n` added messages are
retained, (b) whenever more than 8 messages are retained the total
character count is at most `hardMaxTokens * 5`, and (c) the retained
messages are a suffix of the added ones (eviction removes oldest
first).  The unconditional character bound of the original claim
fails when at most 8 oversized messages are retained. -/
theorem addMessage_hard_ceiling (cfg : CMConfig) (adds : List (MsgRole × Str)) :
    min 8 adds.length ≤ (applyAdds cfg adds).messages.length
    ∧ (8 < (applyAdds cfg adds).messages.length →
        totalChars (applyAdds cfg adds).messages ≤ cfg.hardMaxTokens * 5)
    ∧ (applyAdds cfg adds).messages <:+ adds.map (fun a => ⟨a.1, a.2⟩) := by
  induction adds using List.reverseRecOn with
  | nil => simp [applyAdds]
  | append_singleton adds a ih =>
    have hstep : applyAdds cfg (adds ++ [a])
        = addMessage cfg (applyAdds cfg adds) a.1 a.2 := by
      simp [applyAdds]
    obtain ⟨ih1, _, ih3⟩ := ih
    refine ⟨?_, ?_, ?_⟩
    · rw [hstep]
      have hl := trimHardMax_length (cfg.hardMaxTokens * 5)
        ((applyAdds cfg adds).messages ++ [⟨a.1, a.2⟩])
      simp only [List.length_append, List.length_cons, List.length_nil] at hl
      simp only [addMessage, List.length_append, List.length_cons, List.length_nil]
      omega
    · rw [hstep]
      intro hgt
      have hx := trimHardMax_exit (cfg.hardMaxTokens * 5)
        ((applyAdds cfg adds).messages ++ [⟨a.1, a.2⟩])
      simp only [addMessage] at hgt
      simp only [addMessage]
      omega
    · rw [hstep]
      have h1 : (addMessage cfg (applyAdds cfg adds) a.1 a.2).messages
          <:+ (applyAdds cfg adds).messages ++ [⟨a.1, a.2⟩] :=
        trimHardMax_suffix _ _
      have h2 : (applyAdds cfg adds).messages ++ [(⟨a.1, a.2⟩ : Msg)]
          <:+ adds.map (fun a => (⟨a.1, a.2⟩ : Msg)) ++ [⟨a.1, a.2⟩] := by
        obtain ⟨pre, hpre⟩ := ih3
        exact ⟨pre, by rw [← List.append_assoc, hpre]⟩
      simpa using h1.trans h2

/-- Counterexample to C1 as stated: with `hardMaxTokens := 1`
(reachable through the constructor opts), a single six-character
message leaves the retained character total at 6, above
`hardMaxTokens * 5 = 5`, because eviction never runs with at most 8
messages retained. -/
theorem addMessage_hard_ceiling_cex :
    ¬ (totalChars (applyAdds ⟨1, 1, 8, 10⟩
        [(MsgRole.user, ("abcdef".toList))]).messages ≤ 1 * 5) := by
  decide

/-- Witness for C1 (amended) at a concrete run of 9 small messages:
more than 8 are retained and the bound holds. -/
theorem addMessage_hard_ceiling_w :
    totalChars (applyAdds ⟨4096, 3072, 8, 10⟩
      (List.replicate 9 (MsgRole.user, ("hi".toList)))).messages ≤ 4096 * 5 :=
  (addMessage_hard_ceiling ⟨4096, 3072, 8, 10⟩ _).2.1 (by decide)

/-! ## Theorems: summarization no-op and truncation (C8, C9) -/

/-- Helper: the early return of `summarizeConversation` below the
minimum message count. -/
theorem summarize_below_min (cfg : CMConfig) (st : CMState)
    (h : st.messages.length < cfg.summarizeMinMessages) :
    summarizeConversation cfg st = st := by
  unfold summarizeConversation
  rw [if_pos h]

/-- C8: `summarizeConversation` is a no-op whenever the message count
is below `summarizeMinMessages` — both the summary and the message
list are untouched — and consequently, whenever one call leaves the
message count below `summarizeMinMessages`, a second call changes
nothing. -/
theorem summarize_noop_and_idempotent (cfg : CMConfig) (st : CMState) :
    (st.messages.length < cfg.summarizeMinMessages → summarizeConversation cfg st = st)
    ∧ ((summarizeConversation cfg st).messages.length < cfg.summarizeMinMessages →
        summarizeConversation cfg (summarizeConversation cfg st)
          = summarizeConversation cfg st) :=
  ⟨summarize_below_min cfg st, summarize_below_min cfg (summarizeConversation cfg st)⟩

/-- Witness for C8 at a concrete 3-message state with the default
minimum of 10. -/
theorem summarize_noop_and_idempotent_w :
    summarizeConversation ⟨4096, 3072, 8, 10⟩
        ⟨[⟨MsgRole.user, ("a".toList)⟩, ⟨MsgRole.assistant, ("b".toList)⟩,
          ⟨MsgRole.user, ("c".toList)⟩], []⟩
      = ⟨[⟨MsgRole.user, ("a".toList)⟩, ⟨MsgRole.assistant, ("b".toList)⟩,
          ⟨MsgRole.user, ("c".toList)⟩], []⟩ :=
  (summarize_noop_and_idempotent _ _).1 (by decide)

/-- C9 (amended): when `summarizeConversation` actually summarizes
(message count at least `summarizeMinMessages` and at least 4
user/assistant messages in the last-12 window), the message list is
truncated to the most recent `max 5 (recentHistoryCount / 2)`
messages — not to `recentHistoryCount / 2` as claimed; with the
default `recentHistoryCount = 8` the floor of 5 wins. -/
theorem summarize_truncates_to_keep (cfg : CMConfig) (st : CMState)
    (h1 : cfg.summarizeMinMessages ≤ st.messages.length)
    (h2 : 4 ≤ (takeLast 12 (st.messages.filter
      (fun m => m.role = MsgRole.user ∨ m.role = MsgRole.assistant))).length) :
    (summarizeConversation cfg st).messages
      = takeLast (max 5 (cfg.recentHistoryCount / 2)) st.messages := by
  unfold summarizeConversation
  rw [if_neg (by omega)]
  simp only []
  rw [if_neg (by omega)]

/-- The default configuration (no `opts`, `maxTokens` setting 4096). -/
def cfgDefault : CMConfig := ⟨4096, 3072, 8, 10⟩

/-- A 10-message state of alternating user/assistant turns. -/
def st10 : CMState :=
  ⟨[⟨MsgRole.user, ("m1".toList)⟩, ⟨MsgRole.assistant, ("m2".toList)⟩,
    ⟨MsgRole.user, ("m3".toList)⟩, ⟨MsgRole.assistant, ("m4".toList)⟩,
    ⟨MsgRole.user, ("m5".toList)⟩, ⟨MsgRole.assistant, ("m6".toList)⟩,
    ⟨MsgRole.user, ("m7".toList)⟩, ⟨MsgRole.assistant, ("m8".toList)⟩,
    ⟨MsgRole.user, ("m9".toList)⟩, ⟨MsgRole.assistant, ("mA".toList)⟩], []⟩

/-- Counterexample to C9 as stated: under the default configuration
(`recentHistoryCount = 8`, so the claim predicts 4 retained), a
summarizing call on 10 alternating messages retains 5 messages,
because the source floors the kept count at 5. -/
theorem summarize_truncates_cex :
    (summarizeConversation cfgDefault st10).messages.length = 5
    ∧ cfgDefault.recentHistoryCount / 2 = 4 := by
  constructor
  · decide
  · decide

/-- Witness for C9 (amended) at the same concrete state. -/
theorem summarize_truncates_to_keep_w :
    (summarizeConversation cfgDefault st10).messages
      = takeLast (max 5 (cfgDefault.recentHistoryCount / 2)) st10.messages :=
  summarize_truncates_to_keep cfgDefault st10 (by decide) (by decide)

/-! ## Theorems: search cutoff (C7) -/

/-- Matches contributed by the lines of a single file. -/
def fileMatches (test : Str → Bool) (f : WFile) : List SMatch :=
  ((enumLines f.txt).filter (fun p => test p.2)).map (fun p => ⟨f.name, p.1 + 1, p.2⟩)

/-- Helper: `allMatches` unfolds file by file. -/
theorem allMatches_cons (test : Str → Bool) (f : WFile) (rest : List WFile) :
    allMatches test (f :: rest) = fileMatches test f ++ allMatches test rest := by
  simp [allMatches, fileMatches]

/-- Helper: the inner line loop extends the accumulator to the first
`k` matches, provided the accumulator is still below the cutoff. -/
theorem searchLinesGo_take (test : Str → Bool) (fname : Str) (k : Nat) :
    ∀ (ls : List (Nat × Str)) (acc : List SMatch), acc.length < k →
      searchLinesGo test fname k ls acc
        = (acc ++ (ls.filter (fun p => test p.2)).map
            (fun p => (⟨fname, p.1 + 1, p.2⟩ : SMatch))).take k
  | [], acc, hlt => by
    simp [searchLinesGo, List.take_of_length_le, Nat.le_of_lt hlt]
  | (i, l) :: rest, acc, hlt => by
    unfold searchLinesGo
    by_cases ht : test l
    · simp only [ht, if_true]
      by_cases hk : k ≤ (acc ++ [(⟨fname, i + 1, l⟩ : SMatch)]).length
      · rw [if_pos hk]
        have hlen : (acc ++ [(⟨fname, i + 1, l⟩ : SMatch)]).length = k := by
          simp at hk ⊢; omega
        rw [List.filter_cons_of_pos (by simpa using ht)]
        simp only [List.map_cons]
        rw [show acc ++ (⟨fname, i + 1, l⟩ : SMatch)
              :: ((rest.filter (fun p => test p.2)).map (fun p => (⟨fname, p.1 + 1, p.2⟩ : SMatch)))
            = (acc ++ [(⟨fname, i + 1, l⟩ : SMatch)])
              ++ (rest.filter (fun p => test p.2)).map (fun p => (⟨fname, p.1 + 1, p.2⟩ : SMatch))
          by simp]
        rw [List.take_append_of_le_length (by omega), ← hlen, List.take_length]
      · rw [if_neg hk]
        have hlt' : (acc ++ [(⟨fname, i + 1, l⟩ : SMatch)]).length < k := by
          simp at hk ⊢; omega
        rw [searchLinesGo_take test fname k rest _ hlt']
        rw [List.filter_cons_of_pos (by simpa using ht)]
        simp
    · rw [if_neg ht, searchLinesGo_take test fname k rest acc hlt,
        List.filter_cons_of_neg (by simpa using ht)]

/-- Helper: the outer file loop produces the first `k` matches in
file-then-line order. -/
theorem searchFilesGo_take (test : Str → Bool) (k : Nat) :
    ∀ (files : List WFile) (acc : List SMatch), acc.length < k →
      searchFilesGo test k files acc = (acc ++ allMatches test files).take k
  | [], acc, hlt => by
    simp [searchFilesGo, allMatches, List.take_of_length_le, Nat.le_of_lt hlt]
  | f :: rest, acc, hlt => by
    unfold searchFilesGo
    have hinner := searchLinesGo_take test f.name k (enumLines f.txt) acc hlt
    rw [allMatches_cons]
    have hfm : searchLinesGo test f.name k (enumLines f.txt) acc
        = (acc ++ fileMatches test f).take k := by
      rw [hinner]; rfl
    by_cases hk : k ≤ (searchLinesGo test f.name k (enumLines f.txt) acc).length
    · rw [if_pos hk]
      rw [hfm] at hk ⊢
      have hlen : ((acc ++ fileMatches test f).take k).length = k := by
        have := List.length_take_le k (acc ++ fileMatches test f)
        omega
      have hklen : k ≤ (acc ++ fileMatches test f).length := by
        have := List.length_take k (acc ++ fileMatches test f)
        omega
      rw [show acc ++ (fileMatches test f ++ allMatches test rest)
            = (acc ++ fileMatches test f) ++ allMatches test rest by simp]
      rw [List.take_append_of_le_length hklen]
    · rw [if_neg hk, hfm]
      rw [hfm] at hk
      have hlt' : ((acc ++ fileMatches test f).take k).length < k := by omega
      have hshort : (acc ++ fileMatches test f).length < k := by
        have := List.length_take k (acc ++ fileMatches test f)
        omega
      rw [searchFilesGo_take test k rest _ hlt']
      rw [List.take_of_length_le (Nat.le_of_lt hshort)]
      simp

/-- C7: for every positive `maxResults` (defaulting to 200),
`search_in_workspace` returns exactly the first `maxResults` matching
`{file, line, text}` entries in file-then-line scan order — in
particular at most `maxResults` of them — and the double cutoff means
the remaining lines and files contribute nothing. -/
theorem search_in_workspace_cutoff (query : Str) (test : Str → Bool)
    (maxResults : Option Nat) (files : List WFile)
    (hq : query ≠ []) (hk : 1 ≤ maxResults.getD 200) :
    search_in_workspace query test maxResults files
      = .found ((allMatches test files).take (maxResults.getD 200))
    ∧ ((allMatches test files).take (maxResults.getD 200)).length
        ≤ maxResults.getD 200 := by
  constructor
  · unfold search_in_workspace
    rw [if_neg hq]
    rw [searchFilesGo_take test (maxResults.getD 200) files []
      (by simp only [List.length_nil]; omega)]
    simp
  · exact List.length_take_le _ _

/-- Witness for C7: the specification scenario — a workspace with five
matching lines and `maxResults := 2` yields exactly the first two
matches. -/
theorem search_in_workspace_cutoff_w :
    search_in_workspace ("TODO".toList) (fun l => occursB ("TODO".toList) l) (some 2)
        [⟨("a.ts".toList), ("TODO one\nok\nTODO two".toList)⟩,
         ⟨("b.ts".toList), ("TODO three\nTODO four\nTODO five".toList)⟩]
      = .found ((allMatches (fun l => occursB ("TODO".toList) l)
          [⟨("a.ts".toList), ("TODO one\nok\nTODO two".toList)⟩,
           ⟨("b.ts".toList), ("TODO three\nTODO four\nTODO five".toList)⟩]).take 2) :=
  (search_in_workspace_cutoff _ _ _ _ (by decide) (by decide)).1

/-! ## Theorems: run_command timeout and exit semantics (C4) -/

/-- Helper: folding data-only events accumulates output streams and
leaves timer, kill flag and settlement untouched. -/
theorem runFold_data (tmo : Nat) :
    ∀ (pre : List PEvent) (st : PState), (∀ e ∈ pre, isDataEvent e = true) →
      pre.foldl (runStep tmo) st
        = { st with out := st.out ++ stdoutOf pre, err := st.err ++ stderrOf pre }
  | [], st, _ => by simp [stdoutOf, stderrOf]
  | e :: rest, st, h => by
    have he := h e (by simp)
    have hrest : ∀ x ∈ rest, isDataEvent x = true := fun x hx => h x (by simp [hx])
    cases e with
    | out s =>
      rw [List.foldl_cons, runFold_data tmo rest _ hrest]
      simp [runStep, stdoutOf, stderrOf, List.foldl_cons]
    | err s =>
      rw [List.foldl_cons, runFold_data tmo rest _ hrest]
      simp [runStep, stdoutOf, stderrOf, List.foldl_cons]
    | timerFire => simp [isDataEvent] at he
    | close code => simp [isDataEvent] at he

/-- Helper: settling is permanent — no later event can change a
settled value (first-resolve-wins). -/
theorem runStep_settled_permanent (tmo : Nat) (st : PState) (e : PEvent)
    (r : ToolResultM) (h : st.settled = some r) :
    (runStep tmo st e).settled = some r := by
  cases e with
  | out s => simpa [runStep]
  | err s => simpa [runStep]
  | timerFire =>
    simp only [runStep]
    split
    · simp [settle, h]
    · exact h
  | close code => simp [runStep, settle, h]

/-- Helper: fold version of settlement permanence. -/
theorem runFold_settled_permanent (tmo : Nat) :
    ∀ (evs : List PEvent) (st : PState) (r : ToolResultM), st.settled = some r →
      (evs.foldl (runStep tmo) st).settled = some r
  | [], _, _, h => h
  | e :: rest, st, r, h =>
    runFold_settled_permanent tmo rest _ r (runStep_settled_permanent tmo st e r h)

/-- Helper: the kill flag is never cleared. -/
theorem runFold_killed_permanent (tmo : Nat) :
    ∀ (evs : List PEvent) (st : PState), st.killed = true →
      (evs.foldl (runStep tmo) st).killed = true
  | [], _, h => h
  | e :: rest, st, h => by
    refine runFold_killed_permanent tmo rest _ ?_
    cases e with
    | out s => simpa [runStep]
    | err s => simpa [runStep]
    | timerFire =>
      simp only [runStep]
      split
      · simp only [settle]
        split
        · rfl
        · rfl
      · exact h
    | close code =>
      simp only [runStep, settle]
      split
      · exact h
      · exact h

/-- C4: `run_command` semantics over any event schedule.  (a) The
effective timeout is `timeoutSec`, else the configured value, else
300 seconds.  (b) If the timer fires after only data events, the
process is force-killed and the promise settles — permanently — to
`{ok:false, error:"timeout after Ns", output: partial stdout}`.
(c) If the process closes first, the promise settles to `ok` iff the
exit code is 0, with stderr (or the generic `exit code N` message)
as the error on failure.  (d) A settled value is never overwritten,
so the timer/close race cannot double-resolve. -/
theorem run_command_contract (args : RunArgs) (cfgT : Option Nat)
    (pre post : List PEvent) (hdata : ∀ e ∈ pre, isDataEvent e = true) :
    (effTimeoutMs args cfgT = (args.timeoutSec.getD (cfgT.getD 300)) * 1000)
    ∧ ((runCommandModel args cfgT (pre ++ PEvent.timerFire :: post)).settled
        = some ⟨false, some (stdoutOf pre),
            some (("timeout after ".toList)
              ++ natDec (effTimeoutMs args cfgT / 1000) ++ ['s'])⟩
      ∧ (runCommandModel args cfgT (pre ++ PEvent.timerFire :: post)).killed = true)
    ∧ (∀ code, (runCommandModel args cfgT (pre ++ PEvent.close code :: post)).settled
        = some (closeResult code (stdoutOf pre) (stderrOf pre)))
    ∧ (∀ st e r, st.settled = some r →
        (runStep (effTimeoutMs args cfgT) st e).settled = some r) := by
  refine ⟨rfl, ⟨?_, ?_⟩, ?_, fun st e r h => runStep_settled_permanent _ st e r h⟩
  · unfold runCommandModel
    rw [List.foldl_append, runFold_data _ pre runInit hdata, List.foldl_cons]
    refine runFold_settled_permanent _ post _ _ ?_
    simp [runInit, runStep, settle, timeoutResult]
  · unfold runCommandModel
    rw [List.foldl_append, runFold_data _ pre runInit hdata, List.foldl_cons]
    refine runFold_killed_permanent _ post _ ?_
    simp [runInit, runStep, settle]
  · intro code
    unfold runCommandModel
    rw [List.foldl_append, runFold_data _ pre runInit hdata, List.foldl_cons]
    refine runFold_settled_permanent _ post _ _ ?_
    simp [runInit, runStep, settle]

/-- Witness for C4: the specification scenario `{cmd:"sleep 5",
timeoutSec:1}` with a schedule in which the timer fires (the later
`close` of the killed process changes nothing): the settled value is
`{ok:false, error:"timeout after 1s", output:"p"}`. -/
theorem run_command_contract_w :
    (runCommandModel ⟨("sleep 5".toList), some 1⟩ none
        ([PEvent.out ("p".toList)] ++ PEvent.timerFire :: [PEvent.close none])).settled
      = some ⟨false, some ("p".toList),
          some (("timeout after ".toList)
            ++ natDec (effTimeoutMs ⟨("sleep 5".toList), some 1⟩ none / 1000) ++ ['s'])⟩ := by
  have h := (run_command_contract ⟨("sleep 5".toList), some 1⟩ none
    [PEvent.out ("p".toList)] [PEvent.close none] (by decide)).2.1.1
  simpa using h

/-! ## Theorems: the parse cascade accepts only files arrays (C2) -/

/-- Whether a parsed payload carries a `files` property that is an
array. -/
def hasFilesArr (j : Json) : Bool :=
  match getProp j filesKey with
  | some (.arr _) => true
  | _ => false

/-- Whether a parsed payload carries an empty `files` array. -/
def filesEmptyArr (j : Json) : Bool :=
  match getProp j filesKey with
  | some (.arr es) => es.isEmpty
  | _ => false

/-- Helper: everything `safeParse` accepts has a `files` array. -/
theorem safeParse_hasFilesArr (s : Str) (j : Json)
    (h : safeParse s = some j) : hasFilesArr j = true := by
  unfold safeParse at h
  split at h
  · exact absurd h (by simp)
  · rename_i j0 _
    split at h
    · exact absurd h (by simp)
    · split at h
      · rename_i harr
        obtain rfl : j0 = j := by simpa using h
        simp [hasFilesArr, harr]
      · exact absurd h (by simp)

/-- Helper: everything `parseAnyProject` accepts has a `files`
array. -/
theorem parseAnyProject_hasFilesArr (s : Str) (j : Json)
    (h : parseAnyProject s = some j) : hasFilesArr j = true := by
  unfold parseAnyProject at h
  split at h
  · exact absurd h (by simp)
  · rename_i j0 _
    split at h
    · split at h
      · rename_i harr
        obtain rfl : j0 = j := by simpa using h
        simp [hasFilesArr, harr]
      · exact absurd h (by simp)
    · exact absurd h (by simp)

/-- Helper: everything `extractProjectFromResponse` accepts has a
`files` array. -/
theorem extract_hasFilesArr (text : Str) (j : Json)
    (h : extractProjectFromResponse text = some j) : hasFilesArr j = true := by
  unfold extractProjectFromResponse at h
  split at h
  · exact absurd h (by simp)
  · split at h
    · exact safeParse_hasFilesArr _ _ h
    · split at h
      · split at h
        · exact absurd h (by simp)
        · exact safeParse_hasFilesArr _ _ h
      · exact absurd h (by simp)

/-- Helper: everything the loose extractor accepts has a `files`
array. -/
theorem loose_hasFilesArr (text : Str) (j : Json)
    (h : extractProjectFromResponseLoose text = some j) : hasFilesArr j = true := by
  unfold extractProjectFromResponseLoose at h
  split at h
  · exact absurd h (by simp)
  · dsimp only [] at h
    split at h
    · split at h
      · split at h
        · rename_i hcand
          split at h
          · obtain rfl : _ = j := by simpa using h
            exact safeParse_hasFilesArr _ _ hcand
          · exact safeParse_hasFilesArr _ _ h
        · exact safeParse_hasFilesArr _ _ h
      · exact safeParse_hasFilesArr _ _ h
    · exact safeParse_hasFilesArr _ _ h

/-- C2 (amended): `parseProjectFromAnyText` returns a payload only if
its `files` field is an array — possibly empty, since none of the
validity checks require non-emptiness. -/
theorem parseProjectFromAnyText_hasFilesArr (text : Str) (j : Json)
    (h : parseProjectFromAnyText text = some j) : hasFilesArr j = true := by
  unfold parseProjectFromAnyText at h
  split at h
  · exact absurd h (by simp)
  · split at h
    · rename_i hstrict
      obtain rfl : _ = j := by simpa using h
      exact extract_hasFilesArr _ _ hstrict
    · split at h
      · rename_i hraw
        obtain rfl : _ = j := by simpa using h
        exact parseAnyProject_hasFilesArr _ _ hraw
      · split at h
        · rename_i hloose
          obtain rfl : _ = j := by simpa using h
          exact loose_hasFilesArr _ _ hloose
        · exact parseAnyProject_hasFilesArr _ _ h

/-- Counterexample to C2 as stated: the reply `{"files":[]}` parses to
a non-null payload whose `files` array is empty — the cascade checks
`Array.isArray(obj.files)` but never non-emptiness. -/
theorem parseProjectFromAnyText_empty_files_cex :
    parseProjectFromAnyText ("\x7b\"files\":[]\x7d".toList)
        = some (.obj [(filesKey, .arr [])])
    ∧ filesEmptyArr (.obj [(filesKey, .arr [])]) = true := by
  exact ⟨rfl, rfl⟩

/-- Witness for C2 (amended) at a concrete accepted input. -/
theorem parseProjectFromAnyText_hasFilesArr_w :
    hasFilesArr (.obj [(filesKey, .arr [.bool true])]) = true :=
  parseProjectFromAnyText_hasFilesArr ("\x7b\"files\":[true]\x7d".toList) _ rfl

/-! ## Theorems: the tier structure of the cascade (C3) -/

/-- The cascade as the code actually implements it (the amended
description): tier 1 is the whole of `extractProjectFromResponse` —
the tag-pair parse when the tags are present (its failure ends the
tier without trying the fence), otherwise the first `json`-labelled
fenced block; tier 2 parses the fence-stripped text; tier 3 is the
loose scan over the fence-stripped text, which itself falls back to a
whole parse of that text; tier 4 parses the raw trimmed text. -/
def actualParseCascade (text : Str) : Option Json :=
  if text = [] then none
  else
    let tier1 :=
      match tagCond text with
      | some (ts, te) => safeParse (trimStr (sliceStr text (ts + STARTTAG.length) te))
      | none =>
        match fencedJsonGroup text with
        | some g => if g.isEmpty then none else safeParse (trimStr g)
        | none => none
    match tier1 with
    | some j => some j
    | none =>
      match parseAnyProject (trimStr (stripMarkdownFences text)) with
      | some j => some j
      | none =>
        match extractProjectFromResponseLoose text with
        | some j => some j
        | none => parseAnyProject (trimStr text)

/-- A reply whose first fenced block is labelled `py` and whose
`json`-labelled payload sits in a second fenced block. -/
def t3cex : Str :=
  [bq, bq, bq] ++ ("py\n\x7boops\n".toList) ++ [bq, bq, bq] ++ (" ".toList)
    ++ [bq, bq, bq] ++ ("json \x7b\"files\":[\"ok\"]\x7d ".toList) ++ [bq, bq, bq]

/-- Counterexample to C3 as stated: on `t3cex` the implementation
recovers the payload through the fenced-block attempt inside tier 1,
while the four tiers as the specification words them all fail (tier 2
strips to the interior of the first block, the raw text has no balanced
top-level object, and the whole text is not JSON). -/
theorem parseProjectFromAnyText_tiers_cex :
    (parseProjectFromAnyText t3cex).isSome = true
    ∧ specFourTierParse t3cex = none := by
  exact ⟨rfl, rfl⟩

/-- C3 (amended): `parseProjectFromAnyText` equals the corrected tier
cascade on every input. -/
theorem parseProjectFromAnyText_eq_actualCascade (text : Str) :
    parseProjectFromAnyText text = actualParseCascade text := by
  unfold parseProjectFromAnyText actualParseCascade extractProjectFromResponse
  by_cases h : text = []
  · simp [h]
  · simp only [h, if_false]

/-! ## Theorems: round-tripping the wire format (C6)

Phase A: locating the tag pair in a serialized payload. -/

/-- Length of the opening tag. -/
@[simp] theorem STARTTAG_length : STARTTAG.length = 14 := rfl

/-- Length of the closing tag. -/
@[simp] theorem ENDTAG_length : ENDTAG.length = 15 := rfl

/-- Helper: Bool-level and Prop-level prefix agree. -/
theorem isPrefixOf_eq_true_iff (p s : Str) : p.isPrefixOf s = true ↔ p <+: s := by
  simp

/-- Helper: `indexOf` answers 0 on a prefix match. -/
theorem idxOf_zero_of_pref (p s : Str) (h : p.isPrefixOf s = true) :
    idxOf p s = some 0 := by
  unfold idxOf
  rw [if_pos h]

/-- Helper: `indexOf` characterized as the first hit. -/
theorem idxOf_some_intro (p : Str) :
    ∀ (n : Nat) (s : Str), p.isPrefixOf (s.drop n) = true →
      (∀ i < n, ¬ p.isPrefixOf (s.drop i) = true) →
      idxOf p s = some n := by
  intro n
  induction n with
  | zero => intro s hat _; exact idxOf_zero_of_pref p s (by simpa using hat)
  | succ n ih =>
    intro s hat hno
    have h0 : ¬ p.isPrefixOf s = true := by
      have := hno 0 (Nat.succ_pos n)
      simpa using this
    cases s with
    | nil =>
      exact absurd (by simpa using hat) h0
    | cons c t =>
      unfold idxOf
      rw [if_neg h0]
      dsimp only []
      have hat' : p.isPrefixOf (t.drop n) = true := by simpa using hat
      have hno' : ∀ i < n, ¬ p.isPrefixOf (t.drop i) = true := by
        intro i hi
        have := hno (i + 1) (by omega)
        simpa using this
      rw [ih t hat' hno']
      rfl

/-- Helper: a full occurrence at any offset makes `occursB` true. -/
theorem occursB_of_prefix_drop (p : Str) :
    ∀ (j : Nat) (s : Str), p.isPrefixOf (s.drop j) = true → occursB p s = true := by
  intro j
  induction j with
  | zero =>
    intro s h
    simp only [List.drop_zero] at h
    unfold occursB
    rw [idxOf_zero_of_pref p s h]
    rfl
  | succ j ih =>
    intro s h
    cases s with
    | nil =>
      simp only [List.drop_nil] at h
      unfold occursB
      rw [idxOf_zero_of_pref p [] h]
      rfl
    | cons c t =>
      have ht := ih t (by simpa using h)
      unfold occursB idxOf
      split
      · rfl
      · dsimp only []
        unfold occursB at ht
        simpa using ht

/-- Helper: no proper overlap of the closing tag with itself. -/
theorem endtag_no_border : ∀ k < 15, k ≠ 0 → ENDTAG.drop k ≠ ENDTAG.take (15 - k) := by
  decide

/-- Helper: the closing tag matches nowhere inside the opening tag. -/
theorem endtag_vs_starttag : ∀ i < 14, ENDTAG.take (14 - i) ≠ STARTTAG.drop i := by
  decide

/-- Helper: in `STARTTAG ++ body ++ ENDTAG` with no closing tag in the
body, the closing tag occurs at no position before the final one. -/
theorem endtag_no_early_hit (body : Str) (hocc : occursB ENDTAG body = false) :
    ∀ i < 14 + body.length,
      ¬ ENDTAG.isPrefixOf ((STARTTAG ++ body ++ ENDTAG).drop i) = true := by
  intro i hi hpref
  rw [isPrefixOf_eq_true_iff] at hpref
  obtain ⟨t, ht⟩ := hpref
  rw [List.append_assoc] at ht
  by_cases hi14 : i < 14
  · rw [List.drop_append_of_le_length (by rw [STARTTAG_length]; omega)] at ht
    have hL : (ENDTAG ++ t).take (14 - i) = ENDTAG.take (14 - i) :=
      List.take_append_of_le_length (by rw [ENDTAG_length]; omega)
    have hR : (STARTTAG.drop i ++ (body ++ ENDTAG)).take (14 - i) = STARTTAG.drop i := by
      rw [List.take_append_of_le_length
          (by rw [List.length_drop, STARTTAG_length]; try omega)]
      exact List.take_of_length_le (by rw [List.length_drop, STARTTAG_length]; try omega)
    have htake : ENDTAG.take (14 - i) = STARTTAG.drop i := by
      have hc := congrArg (List.take (14 - i)) ht
      rw [hL, hR] at hc
      exact hc
    exact endtag_vs_starttag i hi14 htake
  · push_neg at hi14
    have hdrop : (STARTTAG ++ (body ++ ENDTAG)).drop i = body.drop (i - 14) ++ ENDTAG := by
      rw [List.drop_append_eq_append_drop,
        List.drop_eq_nil_of_le (by rw [STARTTAG_length]; omega),
        List.nil_append, STARTTAG_length,
        List.drop_append_eq_append_drop,
        show i - 14 - body.length = 0 from by omega,
        List.drop_zero]
    rw [hdrop] at ht
    have hbslen : (body.drop (i - 14)).length = body.length - (i - 14) :=
      List.length_drop _ _
    have hL15 : (ENDTAG ++ t).take 15 = ENDTAG := by
      rw [List.take_append_of_le_length (by rw [ENDTAG_length]),
        show (15 : Nat) = ENDTAG.length from rfl, List.take_length]
    by_cases hk15 : 15 ≤ (body.drop (i - 14)).length
    · have hR : (body.drop (i - 14) ++ ENDTAG).take 15 = (body.drop (i - 14)).take 15 :=
        List.take_append_of_le_length hk15
      have htake : ENDTAG = (body.drop (i - 14)).take 15 := by
        have hc := congrArg (List.take 15) ht
        rw [hL15, hR] at hc
        exact hc
      have hbsp : ENDTAG.isPrefixOf (body.drop (i - 14)) = true := by
        rw [isPrefixOf_eq_true_iff, List.prefix_iff_eq_take, ENDTAG_length]
        exact htake
      have hB := occursB_of_prefix_drop ENDTAG (i - 14) body hbsp
      rw [hocc] at hB
      exact absurd hB (by simp)
    · push_neg at hk15
      have hR : (body.drop (i - 14) ++ ENDTAG).take 15
          = body.drop (i - 14) ++ ENDTAG.take (15 - (body.drop (i - 14)).length) := by
        rw [List.take_append_eq_append_take,
          List.take_of_length_le (Nat.le_of_lt hk15)]
      have htake : ENDTAG = body.drop (i - 14) ++ ENDTAG.take (15 - (body.drop (i - 14)).length) := by
        have hc := congrArg (List.take 15) ht
        rw [hL15, hR] at hc
        exact hc
      have hdropk := congrArg (List.drop (body.drop (i - 14)).length) htake
      rw [List.drop_left] at hdropk
      exact endtag_no_border (body.drop (i - 14)).length (by omega) (by omega) hdropk

/-- Helper: position of the closing tag in a serialized payload whose
body avoids it. -/
theorem idxOf_endtag_serialized (body : Str) (hocc : occursB ENDTAG body = false) :
    idxOf ENDTAG (STARTTAG ++ body ++ ENDTAG) = some (14 + body.length) := by
  apply idxOf_some_intro
  · have hlen : (STARTTAG ++ body).length = 14 + body.length := by
      rw [List.length_append, STARTTAG_length]
    rw [show (14 + body.length) = (STARTTAG ++ body).length from hlen.symm,
      List.drop_left]
    rw [isPrefixOf_eq_true_iff]
  · exact endtag_no_early_hit body hocc

/-- Helper: position of the opening tag in a serialized payload. -/
theorem idxOf_starttag_serialized (body : Str) :
    idxOf STARTTAG (STARTTAG ++ body ++ ENDTAG) = some 0 := by
  apply idxOf_zero_of_pref
  rw [isPrefixOf_eq_true_iff, List.append_assoc]
  exact List.prefix_append _ _

/-- Helper: the tag-pair condition on a serialized payload. -/
theorem tagCond_serialized (body : Str) (hocc : occursB ENDTAG body = false) :
    tagCond (STARTTAG ++ body ++ ENDTAG) = some (0, 14 + body.length) := by
  unfold tagCond
  rw [idxOf_starttag_serialized, idxOf_endtag_serialized body hocc]
  dsimp only []
  rw [if_pos (by omega)]

/-- Helper: slicing the interior recovers the body. -/
theorem slice_serialized (body : Str) :
    sliceStr (STARTTAG ++ body ++ ENDTAG) (0 + STARTTAG.length) (14 + body.length)
      = body := by
  unfold sliceStr
  rw [show (0 + STARTTAG.length) = STARTTAG.length from by omega, List.append_assoc,
    List.drop_left, STARTTAG_length,
    show 14 + body.length - 14 = body.length from by omega,
    List.take_append_of_le_length (Nat.le_refl _), List.take_length]

/-- Helper: `trim` is the identity on a string with non-whitespace
first and last characters. -/
theorem trimStr_of_ends (a z : Char) (mid : Str)
    (ha : jsWs a = false) (hz : jsWs z = false) :
    trimStr (a :: (mid ++ [z])) = a :: (mid ++ [z]) := by
  unfold trimStr
  rw [List.dropWhile_cons, ha]
  simp only [Bool.false_eq_true, if_false]
  rw [show (a :: (mid ++ [z])).reverse = z :: (mid.reverse ++ [a]) by simp,
    List.dropWhile_cons, hz]
  simp

/-! Phase B: `JSON.parse` recovers every `JSON.stringify`-escaped
string. -/

/-- Helper: hex digits round-trip. -/
theorem hexDigitVal_toHexDigit : ∀ d < 16, hexDigitVal (toHexDigit d) = some d := by
  decide

/-- Helper: the string-body parser inverts the `JSON.stringify`
escape, for every string and every continuation. -/
theorem parseStrBody_rt (s : Str) : ∀ r, parseStrBody (escStr s ++ ('"' :: r)) = some (s, r) := by
  induction s with
  | nil =>
    intro r
    show parseStrBody (([] : Str) ++ ('"' :: r)) = some ([], r)
    rw [List.nil_append]
    conv_lhs => unfold parseStrBody
    rw [if_pos rfl]
  | cons c t ih =>
    intro r
    show parseStrBody ((escChar c ++ escStr t) ++ ('"' :: r)) = some (c :: t, r)
    rw [List.append_assoc]
    unfold escChar
    split_ifs with h1 h2 h3 h4 h5 h6 h7 h8
    · subst h1
      simp only [List.cons_append, List.nil_append]
      conv_lhs => unfold parseStrBody
      rw [if_neg (by decide), if_pos rfl]
      simp [jsonEscMap, ih]
    · subst h2
      simp only [List.cons_append, List.nil_append]
      conv_lhs => unfold parseStrBody
      rw [if_neg (by decide), if_pos rfl]
      simp [jsonEscMap, ih]
    · subst h3
      simp only [List.cons_append, List.nil_append]
      conv_lhs => unfold parseStrBody
      rw [if_neg (by decide), if_pos rfl]
      simp [jsonEscMap, ih]
    · subst h4
      simp only [List.cons_append, List.nil_append]
      conv_lhs => unfold parseStrBody
      rw [if_neg (by decide), if_pos rfl]
      simp [jsonEscMap, ih]
    · subst h5
      simp only [List.cons_append, List.nil_append]
      conv_lhs => unfold parseStrBody
      rw [if_neg (by decide), if_pos rfl]
      simp [jsonEscMap, ih]
    · subst h6
      simp only [List.cons_append, List.nil_append]
      conv_lhs => unfold parseStrBody
      rw [if_neg (by decide), if_pos rfl]
      simp [jsonEscMap, ih]
    · subst h7
      simp only [List.cons_append, List.nil_append]
      conv_lhs => unfold parseStrBody
      rw [if_neg (by decide), if_pos rfl]
      simp [jsonEscMap, ih]
    · have hd1 : hexDigitVal (toHexDigit (c.toNat / 16)) = some (c.toNat / 16) :=
        hexDigitVal_toHexDigit _ (by omega)
      have hd0 : hexDigitVal (toHexDigit (c.toNat % 16)) = some (c.toNat % 16) :=
        hexDigitVal_toHexDigit _ (by omega)
      have hz : hexDigitVal '0' = some 0 := by decide
      simp only [List.cons_append, List.nil_append]
      conv_lhs => unfold parseStrBody
      rw [if_neg (by decide), if_pos rfl]
      simp [hz, hd1, hd0, ih]
      rw [show 16 * (c.toNat / 16) + c.toNat % 16 = c.toNat from by omega,
        Char.ofNat_toNat]
    · simp only [List.cons_append, List.nil_append]
      conv_lhs => unfold parseStrBody
      rw [if_neg h1, if_neg h2, if_neg h8, ih]
      rfl

/-! Phase C: parsing a serialized project.  Step lemmas expose one
parser transition each; the serialized text contains no JSON
whitespace outside string literals, so every `dropWhile` is the
identity. -/

/-- Step: a value starting with `{` descends into the object frame. -/
theorem pstep_val_obj (f : Nat) (r : Str) :
    pstep (f + 1) .val ('{' :: r) = pstep f .objFirst r := by
  conv_lhs => unfold pstep
  simp [List.dropWhile_cons, jsonWs]

/-- Step: a value starting with `[` descends into the array frame. -/
theorem pstep_val_arr (f : Nat) (r : Str) :
    pstep (f + 1) .val ('[' :: r) = pstep f .arrFirst r := by
  conv_lhs => unfold pstep
  simp [List.dropWhile_cons, jsonWs]

/-- Step: a serialized string literal parses back to its value. -/
theorem pstep_val_str (f : Nat) (s r : Str) :
    pstep (f + 1) .val ('"' :: (escStr s ++ ('"' :: r))) = some (.str s, r) := by
  conv_lhs => unfold pstep
  simp [List.dropWhile_cons, jsonWs, parseStrBody_rt]

/-- Step: the literal `true`. -/
theorem pstep_val_true (f : Nat) (r : Str) :
    pstep (f + 1) .val ('t' :: 'r' :: 'u' :: 'e' :: r) = some (.bool true, r) := by
  conv_lhs => unfold pstep
  simp [List.dropWhile_cons, jsonWs]

/-- Step: the literal `false`. -/
theorem pstep_val_false (f : Nat) (r : Str) :
    pstep (f + 1) .val ('f' :: 'a' :: 'l' :: 's' :: 'e' :: r) = some (.bool false, r) := by
  conv_lhs => unfold pstep
  simp [List.dropWhile_cons, jsonWs]

/-- Step: the first member of an object. -/
theorem pstep_objFirst_key (f : Nat) (k : Str) (r : Str) :
    pstep (f + 1) .objFirst ('"' :: (escStr k ++ ('"' :: (':' :: r))))
      = (match pstep f .val r with
         | some (v, r4) => pstep f (.objRest [(k, v)]) r4
         | none => none) := by
  conv_lhs => unfold pstep
  simp [List.dropWhile_cons, jsonWs, parseStrBody_rt]

/-- Step: closing an object. -/
theorem pstep_objRest_close (f : Nat) (acc : List (Str × Json)) (r : Str) :
    pstep (f + 1) (.objRest acc) ('}' :: r) = some (.obj acc, r) := by
  conv_lhs => unfold pstep
  simp [List.dropWhile_cons, jsonWs]

/-- Step: a further object member. -/
theorem pstep_objRest_key (f : Nat) (acc : List (Str × Json)) (k : Str) (r : Str) :
    pstep (f + 1) (.objRest acc) (',' :: '"' :: (escStr k ++ ('"' :: (':' :: r))))
      = (match pstep f .val r with
         | some (v, r4) => pstep f (.objRest (insertMember acc k v)) r4
         | none => none) := by
  conv_lhs => unfold pstep
  simp [List.dropWhile_cons, jsonWs, parseStrBody_rt]

/-- Step: the empty array. -/
theorem pstep_arrFirst_close (f : Nat) (r : Str) :
    pstep (f + 1) .arrFirst (']' :: r) = some (.arr [], r) := by
  conv_lhs => unfold pstep
  simp [List.dropWhile_cons, jsonWs]

/-- Step: a first array element that is an object. -/
theorem pstep_arrFirst_obj (f : Nat) (r : Str) :
    pstep (f + 1) .arrFirst ('{' :: r)
      = (match pstep f .val ('{' :: r) with
         | some (v, r2) => pstep f (.arrRest [v]) r2
         | none => none) := by
  conv_lhs => unfold pstep
  simp [List.dropWhile_cons, jsonWs]

/-- Step: closing an array. -/
theorem pstep_arrRest_close (f : Nat) (acc : List Json) (r : Str) :
    pstep (f + 1) (.arrRest acc) (']' :: r) = some (.arr acc, r) := by
  conv_lhs => unfold pstep
  simp [List.dropWhile_cons, jsonWs]

/-- Step: a further array element. -/
theorem pstep_arrRest_comma (f : Nat) (acc : List Json) (r : Str) :
    pstep (f + 1) (.arrRest acc) (',' :: r)
      = (match pstep f .val r with
         | some (v, r2) => pstep f (.arrRest (acc ++ [v])) r2
         | none => none) := by
  conv_lhs => unfold pstep
  simp [List.dropWhile_cons, jsonWs]

/-- Helper: appending a fresh key. -/
theorem insertMember_one_ne (k1 : Str) (v1 : Json) (k2 : Str) (v2 : Json)
    (h : ¬ k1 = k2) : insertMember [(k1, v1)] k2 v2 = [(k1, v1), (k2, v2)] := by
  simp [insertMember, h]

/-- Helper: appending a fresh key to a two-member object. -/
theorem insertMember_two_ne (k1 : Str) (v1 : Json) (k2 : Str) (v2 : Json)
    (k3 : Str) (v3 : Json) (h1 : ¬ k1 = k3) (h2 : ¬ k2 = k3) :
    insertMember [(k1, v1), (k2, v2)] k3 v3 = [(k1, v1), (k2, v2), (k3, v3)] := by
  simp [insertMember, h1, h2]

/-- Helper: one serialized file object parses back to `fileJson`,
using 9 units of fuel headroom. -/
theorem pstep_val_serFile (fl : GeneratedFile) (g : Nat) (r : Str) :
    pstep (g + 9) .val (serFile fl ++ r) = some (fileJson fl, r) := by
  cases hex : fl.executable with
  | none =>
    have hshape : serFile fl ++ r
        = '{' :: ('"' :: (escStr pathKey ++ ('"' :: (':' :: ('"' :: (escStr fl.path ++
            ('"' :: (',' :: ('"' :: (escStr contentKey ++ ('"' :: (':' :: ('"' ::
            (escStr fl.content ++ ('"' :: ('}' :: r)))))))))))))))) := by
      simp [serFile, qstr, hex, List.append_assoc]
    rw [hshape]
    rw [show g + 9 = (g + 8) + 1 from by omega, pstep_val_obj]
    rw [show g + 8 = (g + 7) + 1 from by omega, pstep_objFirst_key]
    rw [show g + 7 = (g + 6) + 1 from by omega, pstep_val_str]
    dsimp only []
    rw [pstep_objRest_key]
    rw [show g + 6 = (g + 5) + 1 from by omega, pstep_val_str]
    dsimp only []
    rw [insertMember_one_ne _ _ _ _ (by decide)]
    rw [pstep_objRest_close]
    simp [fileJson, hex]
  | some b =>
    have hshape : serFile fl ++ r
        = '{' :: ('"' :: (escStr pathKey ++ ('"' :: (':' :: ('"' :: (escStr fl.path ++
            ('"' :: (',' :: ('"' :: (escStr contentKey ++ ('"' :: (':' :: ('"' ::
            (escStr fl.content ++ ('"' :: (',' :: ('"' :: (escStr execKey ++ ('"' :: (':' ::
            ((if b then "true".toList else "false".toList) ++ ('}' :: r)))))))))))))))))))))) := by
      simp [serFile, qstr, hex, List.append_assoc]
    rw [hshape]
    rw [show g + 9 = (g + 8) + 1 from by omega, pstep_val_obj]
    rw [show g + 8 = (g + 7) + 1 from by omega, pstep_objFirst_key]
    rw [show g + 7 = (g + 6) + 1 from by omega, pstep_val_str]
    dsimp only []
    rw [pstep_objRest_key]
    rw [show g + 6 = (g + 5) + 1 from by omega, pstep_val_str]
    dsimp only []
    rw [insertMember_one_ne _ _ _ _ (by decide)]
    rw [pstep_objRest_key]
    cases b with
    | true =>
      have hlit : ((if true then "true".toList else "false".toList) ++ ('}' :: r))
          = 't' :: 'r' :: 'u' :: 'e' :: ('}' :: r) := by simp
      rw [hlit, show g + 5 = (g + 4) + 1 from by omega, pstep_val_true]
      dsimp only []
      rw [insertMember_two_ne _ _ _ _ _ _ (by decide) (by decide)]
      rw [pstep_objRest_close]
      simp [fileJson, hex]
    | false =>
      have hlit : ((if false then "true".toList else "false".toList) ++ ('}' :: r))
          = 'f' :: 'a' :: 'l' :: 's' :: 'e' :: ('}' :: r) := by simp
      rw [hlit, show g + 5 = (g + 4) + 1 from by omega, pstep_val_false]
      dsimp only []
      rw [insertMember_two_ne _ _ _ _ _ _ (by decide) (by decide)]
      rw [pstep_objRest_close]
      simp [fileJson, hex]

/-- Helper: `serFile` always begins with an opening brace. -/
theorem serFile_cons (fl : GeneratedFile) : ∃ tl, serFile fl = '{' :: tl :=
  ⟨_, rfl⟩

/-- Helper: the comma-separated continuation of a serialized files
array parses element by element. -/
theorem pstep_arrRest_serFiles (files : List GeneratedFile) :
    ∀ (f : Nat) (acc : List Json) (r : Str), 12 * files.length + 1 ≤ f →
      pstep f (.arrRest acc) (serFilesRest files ++ (']' :: r))
        = some (.arr (acc ++ files.map fileJson), r) := by
  induction files with
  | nil =>
    intro f acc r hf
    obtain ⟨g, rfl⟩ : ∃ g, f = g + 1 := ⟨f - 1, by omega⟩
    simp only [serFilesRest, List.nil_append]
    rw [pstep_arrRest_close]
    simp
  | cons fl t ih =>
    intro f acc r hf
    simp only [List.length_cons] at hf
    obtain ⟨g, rfl⟩ : ∃ g, f = g + 10 := ⟨f - 10, by omega⟩
    have hshape : serFilesRest (fl :: t) ++ (']' :: r)
        = ',' :: (serFile fl ++ (serFilesRest t ++ (']' :: r))) := by
      simp [serFilesRest, List.append_assoc]
    rw [hshape]
    rw [show g + 10 = (g + 9) + 1 from by omega, pstep_arrRest_comma]
    rw [pstep_val_serFile]
    dsimp only []
    rw [ih (g + 9) _ r (by omega)]
    simp

/-- Helper: a whole serialized files array parses to the mapped
`fileJson` list. -/
theorem pstep_arrFirst_serFiles (files : List GeneratedFile) :
    ∀ (f : Nat) (r : Str), 12 * files.length + 2 ≤ f →
      pstep f .arrFirst (serFiles files ++ (']' :: r))
        = some (.arr (files.map fileJson), r) := by
  cases files with
  | nil =>
    intro f r hf
    obtain ⟨g, rfl⟩ : ∃ g, f = g + 1 := ⟨f - 1, by omega⟩
    simp only [serFiles, List.nil_append]
    rw [pstep_arrFirst_close]
    simp
  | cons fl t =>
    intro f r hf
    simp only [List.length_cons] at hf
    obtain ⟨g, rfl⟩ : ∃ g, f = g + 10 := ⟨f - 10, by omega⟩
    obtain ⟨tl, htl⟩ := serFile_cons fl
    have hshape : serFiles (fl :: t) ++ (']' :: r)
        = '{' :: (tl ++ (serFilesRest t ++ (']' :: r))) := by
      simp [serFiles, htl, List.append_assoc]
    rw [hshape]
    rw [show g + 10 = (g + 9) + 1 from by omega, pstep_arrFirst_obj]
    rw [show ('{' : Char) :: (tl ++ (serFilesRest t ++ (']' :: r)))
        = serFile fl ++ (serFilesRest t ++ (']' :: r)) from by simp [htl]]
    rw [pstep_val_serFile]
    dsimp only []
    rw [pstep_arrRest_serFiles t (g + 9) _ r (by omega)]
    simp

/-- Helper: a serialized project parses back to `projJson`, given
linear fuel headroom. -/
theorem pstep_val_stringifyProject (p : GeneratedProject) :
    ∀ (f : Nat) (r : Str), 12 * p.files.length + 20 ≤ f →
      pstep f .val (stringifyProject p ++ r) = some (projJson p, r) := by
  intro f r hf
  obtain ⟨g, rfl⟩ : ∃ g, f = g + 20 := ⟨f - 20, by omega⟩
  have hshape : stringifyProject p ++ r
      = '{' :: ('"' :: (escStr filesKey ++ ('"' :: (':' :: ('[' :: (serFiles p.files
          ++ (']' :: (serOptMember postInstallKey p.postInstall
            ++ (serOptMember startKey p.start ++ ('}' :: r)))))))))) := by
    simp [stringifyProject, qstr, List.append_assoc]
  rw [hshape]
  rw [show g + 20 = (g + 19) + 1 from by omega, pstep_val_obj]
  rw [show g + 19 = (g + 18) + 1 from by omega, pstep_objFirst_key]
  rw [show g + 18 = (g + 17) + 1 from by omega, pstep_val_arr]
  rw [pstep_arrFirst_serFiles p.files (g + 17) _ (by omega)]
  dsimp only []
  cases hpi : p.postInstall with
  | none =>
    cases hst : p.start with
    | none =>
      have htail : serOptMember postInstallKey none
          ++ (serOptMember startKey none ++ ('}' :: r)) = '}' :: r := by
        simp [serOptMember]
      rw [htail, pstep_objRest_close]
      simp [projJson, hpi, hst]
    | some st =>
      have htail : serOptMember postInstallKey none
          ++ (serOptMember startKey (some st) ++ ('}' :: r))
          = ',' :: '"' :: (escStr startKey ++ ('"' :: (':' ::
              ('"' :: (escStr st ++ ('"' :: ('}' :: r))))))) := by
        simp [serOptMember, qstr, List.append_assoc]
      rw [htail]
      rw [pstep_objRest_key]
      rw [show g + 17 = (g + 16) + 1 from by omega, pstep_val_str]
      dsimp only []
      rw [insertMember_one_ne _ _ _ _ (by decide), pstep_objRest_close]
      simp [projJson, hpi, hst]
  | some pi =>
    cases hst : p.start with
    | none =>
      have htail : serOptMember postInstallKey (some pi)
          ++ (serOptMember startKey none ++ ('}' :: r))
          = ',' :: '"' :: (escStr postInstallKey ++ ('"' :: (':' ::
              ('"' :: (escStr pi ++ ('"' :: ('}' :: r))))))) := by
        simp [serOptMember, qstr, List.append_assoc]
      rw [htail]
      rw [pstep_objRest_key]
      rw [show g + 17 = (g + 16) + 1 from by omega, pstep_val_str]
      dsimp only []
      rw [insertMember_one_ne _ _ _ _ (by decide), pstep_objRest_close]
      simp [projJson, hpi, hst]
    | some st =>
      have htail : serOptMember postInstallKey (some pi)
          ++ (serOptMember startKey (some st) ++ ('}' :: r))
          = ',' :: '"' :: (escStr postInstallKey ++ ('"' :: (':' ::
              ('"' :: (escStr pi ++ ('"' :: (',' :: '"' :: (escStr startKey
                ++ ('"' :: (':' :: ('"' :: (escStr st ++ ('"' :: ('}' :: r)))))))))))))) := by
        simp [serOptMember, qstr, List.append_assoc]
      rw [htail]
      rw [pstep_objRest_key]
      rw [show g + 17 = (g + 16) + 1 from by omega, pstep_val_str]
      dsimp only []
      rw [insertMember_one_ne _ _ _ _ (by decide)]
      rw [pstep_objRest_key]
      rw [show g + 16 = (g + 15) + 1 from by omega, pstep_val_str]
      dsimp only []
      rw [insertMember_two_ne _ _ _ _ _ _ (by decide) (by decide), pstep_objRest_close]
      simp [projJson, hpi, hst]

/-! Phase D: assembling the round trip. -/

/-- Keys serialize to themselves. -/
@[simp] theorem escStr_pathKey : escStr pathKey = pathKey := rfl

/-- The `content` key serializes to itself. -/
@[simp] theorem escStr_contentKey : escStr contentKey = contentKey := rfl

/-- The `executable` key serializes to itself. -/
@[simp] theorem escStr_execKey : escStr execKey = execKey := rfl

/-- The `files` key serializes to itself. -/
@[simp] theorem escStr_filesKey : escStr filesKey = filesKey := rfl

/-- Key length. -/
@[simp] theorem pathKey_length : pathKey.length = 4 := rfl

/-- Key length. -/
@[simp] theorem contentKey_length : contentKey.length = 7 := rfl

/-- Key length. -/
@[simp] theorem execKey_length : execKey.length = 10 := rfl

/-- Key length. -/
@[simp] theorem filesKey_length : filesKey.length = 5 := rfl

/-- Helper: every serialized file object is at least 20 characters. -/
theorem serFile_length_ge (fl : GeneratedFile) : 20 ≤ (serFile fl).length := by
  cases hex : fl.executable with
  | none => simp [serFile, qstr, hex]; omega
  | some b => cases b <;> simp [serFile, qstr, hex] <;> omega

/-- Helper: length bound for the array continuation. -/
theorem serFilesRest_length_ge :
    ∀ files : List GeneratedFile, 20 * files.length ≤ (serFilesRest files).length := by
  intro files
  induction files with
  | nil => simp [serFilesRest]
  | cons fl t ih =>
    have := serFile_length_ge fl
    simp only [serFilesRest, List.length_cons, List.length_append]
    omega

/-- Helper: length bound for the whole array interior. -/
theorem serFiles_length_ge :
    ∀ files : List GeneratedFile, 20 * files.length ≤ (serFiles files).length := by
  intro files
  cases files with
  | nil => simp [serFiles]
  | cons fl t =>
    have h1 := serFile_length_ge fl
    have h2 := serFilesRest_length_ge t
    simp only [serFiles, List.length_cons, List.length_append]
    omega

/-- Helper: length bound for a serialized project. -/
theorem stringifyProject_length_ge (p : GeneratedProject) :
    11 + 20 * p.files.length ≤ (stringifyProject p).length := by
  have := serFiles_length_ge p.files
  simp only [stringifyProject, qstr, List.length_append, List.length_cons,
    List.length_nil, escStr_filesKey, filesKey_length]
  omega

/-- Helper: `JSON.parse` inverts `JSON.stringify` on project
payloads. -/
theorem jsonParse_stringifyProject (p : GeneratedProject) :
    jsonParse (stringifyProject p) = some (projJson p) := by
  unfold jsonParse
  have hb := stringifyProject_length_ge p
  have hstep := pstep_val_stringifyProject p
    (2 * (stringifyProject p).length + 2) [] (by omega)
  rw [List.append_nil] at hstep
  rw [hstep]
  simp

/-- Helper: `safeParse` accepts a serialized project. -/
theorem safeParse_stringifyProject (p : GeneratedProject) :
    safeParse (stringifyProject p) = some (projJson p) := by
  unfold safeParse
  rw [jsonParse_stringifyProject]
  simp [projJson, jsTruthy, getProp, getProp.find]

/-- Helper: the serialized body in head-middle-last form. -/
theorem stringifyProject_shape (p : GeneratedProject) :
    stringifyProject p
      = '{' :: ((qstr filesKey ++ [':'] ++ ['['] ++ serFiles p.files ++ [']']
          ++ serOptMember postInstallKey p.postInstall
          ++ serOptMember startKey p.start) ++ ['}']) := by
  simp [stringifyProject, List.append_assoc]

/-- Helper: trimming the serialized body is the identity. -/
theorem trimStr_stringifyProject (p : GeneratedProject) :
    trimStr (stringifyProject p) = stringifyProject p := by
  conv_lhs => rw [stringifyProject_shape p]
  rw [trimStr_of_ends '{' '}' _ rfl rfl, ← stringifyProject_shape p]

/-- Helper: a serialized payload is non-empty. -/
theorem serializeTagged_ne_nil (p : GeneratedProject) : serializeTagged p ≠ [] := by
  intro h
  have := congrArg List.length h
  simp [serializeTagged] at this

/-- Helper: the strict extractor recovers a serialized payload whose
body avoids the closing tag. -/
theorem extract_serialized (p : GeneratedProject)
    (hocc : occursB ENDTAG (stringifyProject p) = false) :
    extractProjectFromResponse (serializeTagged p) = some (projJson p) := by
  unfold extractProjectFromResponse
  rw [if_neg (serializeTagged_ne_nil p)]
  unfold serializeTagged
  rw [tagCond_serialized _ hocc]
  dsimp only []
  rw [slice_serialized, trimStr_stringifyProject, safeParse_stringifyProject]

/-- C6 (amended): serializing a `GeneratedProject` into the tag-wrapped
wire format and re-parsing with `parseProjectFromAnyText` yields the
same object — same files with the same paths, contents and executable
flags, and the same `postInstall`/`start` commands — provided the
serialized JSON body does not itself contain the literal closing tag
`</AICODER_JSON>` (in particular whenever no file content embeds it).
Without that proviso the tag search finds the embedded closing tag
first and the round trip can fail, as the counterexample shows. -/
theorem serializeTagged_roundtrip (p : GeneratedProject)
    (hocc : occursB ENDTAG (stringifyProject p) = false) :
    parseProjectFromAnyText (serializeTagged p) = some (projJson p) := by
  unfold parseProjectFromAnyText
  rw [if_neg (serializeTagged_ne_nil p)]
  rw [extract_serialized p hocc]

/-- A project whose single file content embeds the closing tag and a
fenced block. -/
def pcexC6 : GeneratedProject :=
  ⟨[⟨("a".toList),
     ("</AICODER_JSON> ".toList) ++ [bq, bq, bq] ++ ("json hi".toList) ++ [bq, bq, bq],
     none⟩], none, none⟩

/-- Counterexample to C6 as stated: on `pcexC6` the serialized payload
re-parses to nothing at all — the embedded closing tag truncates the
tag-pair slice, and the fence stripping then reduces the text to the
fenced interior `hi`, so every tier fails. -/
theorem serializeTagged_roundtrip_cex :
    parseProjectFromAnyText (serializeTagged pcexC6) = none := by
  rfl

/-- Witness for C6 (amended) at a concrete project with an executable
flag and a post-install command. -/
theorem serializeTagged_roundtrip_w :
    parseProjectFromAnyText (serializeTagged
        ⟨[⟨("a".toList), ("hello".toList), some true⟩], some ("npm i".toList), none⟩)
      = some (projJson
        ⟨[⟨("a".toList), ("hello".toList), some true⟩], some ("npm i".toList), none⟩) :=
  serializeTagged_roundtrip _ (by decide)
